import Mathlib

/-!
# Verification of the dnsmasqmgr core

Shallow embedding of the dnsmasqmgr repository (Go) in Lean 4:
the text codecs for the two on-disk formats (`pkg/etchosts`,
`pkg/dhcphosts`), the IP range allocator (`iprange`), and the lease
manager (`pkg/server`).  Strings are modelled as `List Char`; Go's
`net.IP` values are modelled by their IPv4 32-bit numeric value (all
addresses in this repository's scenarios are IPv4; the 16-byte
IPv4-in-IPv6 normalization used by Go adds a constant offset that
cancels in every comparison and subtraction the code performs, so it
is dropped).  Fallible operations return `Option`/`Except`.
-/

namespace DnsmasqMgr

/-- Strings are modelled as lists of characters. -/
abbrev Str := List Char

/-! ## Character helpers -/

/-- The decimal digit character for `d < 10` (codepoint 48 + d). -/
def digitToChar (d : Nat) : Char := Char.ofNat (48 + d)

/-- Numeric value of a decimal digit character. -/
def charToDigit (c : Char) : Nat := c.toNat - 48

/-- Is `c` a decimal digit? -/
def isDigitCh (c : Char) : Bool := 48 ≤ c.toNat && c.toNat ≤ 57

/-- Lowercase hex digit character for `d < 16`, as produced by Go's
`net.HardwareAddr.String`. -/
def hexToChar (d : Nat) : Char :=
  if d < 10 then Char.ofNat (48 + d) else Char.ofNat (87 + d)

/-- Value of a hex digit character (either case), `none` otherwise. -/
def hexValCh (c : Char) : Option Nat :=
  if 48 ≤ c.toNat ∧ c.toNat ≤ 57 then some (c.toNat - 48)
  else if 97 ≤ c.toNat ∧ c.toNat ≤ 102 then some (c.toNat - 87)
  else if 65 ≤ c.toNat ∧ c.toNat ≤ 70 then some (c.toNat - 55)
  else none

/-! ## Splitting and joining (Go `strings.Split` / rendering with separators) -/

/-- `strings.Split(s, string(sep))` for a one-character separator:
splits `s` at every occurrence of `sep`; always returns at least one
(possibly empty) field. -/
def splitOnChar (sep : Char) : Str → List Str
  | [] => [[]]
  | c :: rest =>
    match splitOnChar sep rest with
    | [] => [[]]
    | f :: fs => if c = sep then [] :: f :: fs else (c :: f) :: fs

/-- Join fields with a one-character separator (inverse of `splitOnChar`
on separator-free fields). -/
def joinWith (sep : Char) : List Str → Str
  | [] => []
  | [f] => f
  | f :: g :: fs => f ++ sep :: joinWith sep (g :: fs)

theorem splitOnChar_ne_nil (sep : Char) (s : Str) : splitOnChar sep s ≠ [] := by
  cases s with
  | nil => simp [splitOnChar]
  | cons c rest =>
    simp only [splitOnChar]
    cases h : splitOnChar sep rest with
    | nil => simp
    | cons f fs =>
      by_cases hc : c = sep <;> simp [hc]

theorem splitOnChar_of_no_sep (sep : Char) (f : Str) (hf : sep ∉ f) :
    splitOnChar sep f = [f] := by
  induction f with
  | nil => rfl
  | cons c rest ih =>
    have hc : c ≠ sep := fun h => hf (h ▸ List.mem_cons_self c rest)
    have hrest : sep ∉ rest := fun h => hf (List.mem_cons_of_mem _ h)
    simp only [splitOnChar, ih hrest]
    simp [hc]

theorem splitOnChar_append_sep (sep : Char) (f rest : Str) (hf : sep ∉ f) :
    splitOnChar sep (f ++ sep :: rest) = f :: splitOnChar sep rest := by
  induction f with
  | nil =>
    simp only [List.nil_append, splitOnChar]
    cases h : splitOnChar sep rest with
    | nil => exact absurd h (splitOnChar_ne_nil sep rest)
    | cons g gs => simp
  | cons c cs ih =>
    have hc : c ≠ sep := fun h => hf (h ▸ List.mem_cons_self c cs)
    have hcs : sep ∉ cs := fun h => hf (List.mem_cons_of_mem _ h)
    simp only [List.cons_append, splitOnChar, List.append_eq]
    rw [ih hcs]
    simp [hc]

theorem splitOnChar_joinWith (sep : Char) (parts : List Str)
    (hne : parts ≠ []) (hsep : ∀ f ∈ parts, sep ∉ f) :
    splitOnChar sep (joinWith sep parts) = parts := by
  induction parts with
  | nil => exact absurd rfl hne
  | cons f fs ih =>
    cases fs with
    | nil =>
      simp only [joinWith]
      exact splitOnChar_of_no_sep sep f (hsep f (List.mem_cons_self f []))
    | cons g gs =>
      simp only [joinWith]
      rw [splitOnChar_append_sep sep f _ (hsep f (List.mem_cons_self _ _))]
      rw [ih (by simp) (fun x hx => hsep x (List.mem_cons_of_mem _ hx))]

/-! ## Decimal octets (decimal rendering of IPv4 address bytes) -/

/-- Decimal representation of a number below 1000 (the per-octet piece
of Go's `net.IP.String` dotted-quad output). -/
def octetToChars (n : Nat) : Str :=
  if n < 10 then [digitToChar n]
  else if n < 100 then [digitToChar (n / 10), digitToChar (n % 10)]
  else [digitToChar (n / 100), digitToChar (n / 10 % 10), digitToChar (n % 10)]

/-- Left fold reading a digit string as a number. -/
def strToNatDigits (f : Str) : Nat :=
  f.foldl (fun a c => a * 10 + charToDigit c) 0

/-- One dotted-quad field of Go's `net.ParseIP` (IPv4 path): a nonempty
all-digit field without a superfluous leading zero, with value at most
255.  (Leading-zero fields are rejected, matching the canonical forms
produced by rendering; this repository only ever parses canonical
fields.) -/
def parseOctet (f : Str) : Option Nat :=
  if f = [] then none
  else if !(f.all isDigitCh) then none
  else if 1 < f.length ∧ f.head? = some (digitToChar 0) then none
  else if strToNatDigits f ≤ 255 then some (strToNatDigits f) else none

set_option maxRecDepth 40000 in
theorem parseOctet_octetToChars : ∀ n < 256, parseOctet (octetToChars n) = some n := by decide

set_option maxRecDepth 40000 in
theorem octetToChars_all_digit : ∀ n < 256, (octetToChars n).all isDigitCh = true := by decide

/-- A digit character is none of the separator characters used by the
on-disk formats. -/
theorem isDigitCh_ne_sep (c : Char) (h : isDigitCh c = true) :
    c ≠ '.' ∧ c ≠ ':' ∧ c ≠ ',' ∧ c ≠ '\t' ∧ c ≠ ' ' ∧ c ≠ '\n' := by
  refine ⟨?_, ?_, ?_, ?_, ?_, ?_⟩ <;>
    (intro hc; subst hc; simp [isDigitCh] at h)

theorem parseOctet_le (f : Str) (v : Nat) (h : parseOctet f = some v) : v ≤ 255 := by
  unfold parseOctet at h
  split at h
  · exact absurd h (by simp)
  · split at h
    · exact absurd h (by simp)
    · split at h
      · exact absurd h (by simp)
      · split at h
        · cases h; assumption
        · exact absurd h (by simp)

/-! ## IPv4 addresses

`net.IP` values are modelled by their 32-bit IPv4 value.  `ipToChars`
is the dotted-quad rendering of `net.IP.String`; `parseIPv4` models
`net.ParseIP` on dotted-quad input (the only address family this
repository's data uses).  A `nil` Go `net.IP` is modelled as `none`;
`ipStr` renders it as the string `"<nil>"`, exactly as Go's
`net.IP.String` does on a nil address. -/

/-- Dotted-quad rendering of an IPv4 value (`net.IP.String`). -/
def ipToChars (v : Nat) : Str :=
  joinWith '.' [octetToChars (v / 16777216 % 256), octetToChars (v / 65536 % 256),
    octetToChars (v / 256 % 256), octetToChars (v % 256)]

/-- `net.ParseIP` on IPv4 dotted-quad input: four octet fields. -/
def parseIPv4 (s : Str) : Option Nat :=
  match splitOnChar '.' s with
  | [a, b, c, d] =>
    match parseOctet a, parseOctet b, parseOctet c, parseOctet d with
    | some x, some y, some z, some w => some (((x * 256 + y) * 256 + z) * 256 + w)
    | _, _, _, _ => none
  | _ => none

/-- `net.IP.String` of a `net.IP` that may be nil: nil renders as `"<nil>"`. -/
def ipStr (oip : Option Nat) : Str :=
  match oip with
  | none => ['<', 'n', 'i', 'l', '>']
  | some v => ipToChars v

theorem dot_not_mem_octetToChars {n : Nat} (hn : n < 256) : '.' ∉ octetToChars n := by
  intro hmem
  have hall := octetToChars_all_digit n hn
  rw [List.all_eq_true] at hall
  exact (isDigitCh_ne_sep _ (hall _ hmem)).1 rfl

theorem parseIPv4_ipToChars (v : Nat) (h : v < 2 ^ 32) : parseIPv4 (ipToChars v) = some v := by
  unfold parseIPv4 ipToChars
  rw [splitOnChar_joinWith '.' _ (by simp) ?hs]
  case hs =>
    intro f hf
    simp only [List.mem_cons, List.not_mem_nil, or_false] at hf
    rcases hf with rfl | rfl | rfl | rfl <;>
      exact dot_not_mem_octetToChars (Nat.mod_lt _ (by norm_num))
  dsimp only
  rw [parseOctet_octetToChars _ (Nat.mod_lt _ (by norm_num)),
    parseOctet_octetToChars _ (Nat.mod_lt _ (by norm_num)),
    parseOctet_octetToChars _ (Nat.mod_lt _ (by norm_num)),
    parseOctet_octetToChars _ (Nat.mod_lt _ (by norm_num))]
  simp only [Option.some.injEq]
  omega

theorem parseIPv4_lt (s : Str) (v : Nat) (h : parseIPv4 s = some v) : v < 2 ^ 32 := by
  unfold parseIPv4 at h
  split at h
  · rename_i a b c d heq
    split at h
    · rename_i x y z w hx hy hz hw
      have hxl := parseOctet_le a x hx
      have hyl := parseOctet_le b y hy
      have hzl := parseOctet_le c z hz
      have hwl := parseOctet_le d w hw
      cases h
      omega
    · exact absurd h (by simp)
  · exact absurd h (by simp)

theorem parseIPv4_nilStr : parseIPv4 (ipStr none) = none := by decide

/-! ## MAC addresses

`net.HardwareAddr` is modelled as the list of its bytes.  `macToChars`
is `net.HardwareAddr.String` (lowercase hex pairs joined by colons);
`parseMAC` models `net.ParseMAC` restricted to the colon-separated
six-group form used throughout this repository (Go additionally
accepts dashed and dotted forms and 8/20-byte addresses, which never
occur here). -/

/-- Two lowercase hex digits of one byte. -/
def byteToHexChars (b : Nat) : Str := [hexToChar (b / 16), hexToChar (b % 16)]

/-- `net.HardwareAddr.String`. -/
def macToChars (m : List Nat) : Str := joinWith ':' (m.map byteToHexChars)

/-- One colon-separated group: exactly two hex digits. -/
def parseHexPair : Str → Option Nat
  | [c1, c2] =>
    match hexValCh c1, hexValCh c2 with
    | some a, some b => some (16 * a + b)
    | _, _ => none
  | _ => none

/-- Parse a list of colon-separated groups. -/
def parseHexGroups : List Str → Option (List Nat)
  | [] => some []
  | f :: fs =>
    match parseHexPair f, parseHexGroups fs with
    | some b, some bs => some (b :: bs)
    | _, _ => none

/-- `net.ParseMAC` (six-group colon form). -/
def parseMAC (s : Str) : Option (List Nat) :=
  if (splitOnChar ':' s).length = 6 then parseHexGroups (splitOnChar ':' s) else none

set_option maxRecDepth 40000 in
theorem parseHexPair_byteToHexChars : ∀ b < 256, parseHexPair (byteToHexChars b) = some b := by
  decide

set_option maxRecDepth 40000 in
theorem colon_not_mem_byteToHexChars : ∀ b < 256, ':' ∉ byteToHexChars b := by
  decide

theorem parseMAC_macToChars (m : List Nat) (hb : ∀ b ∈ m, b < 256) (hlen : m.length = 6) :
    parseMAC (macToChars m) = some m := by
  unfold parseMAC macToChars
  rw [splitOnChar_joinWith ':' _ ?hne ?hs]
  case hne => cases m <;> simp_all
  case hs =>
    intro f hf
    rw [List.mem_map] at hf
    obtain ⟨b, hbm, rfl⟩ := hf
    exact colon_not_mem_byteToHexChars b (hb b hbm)
  have hlen6 : (m.map byteToHexChars).length = 6 := by simp [hlen]
  rw [if_pos hlen6]
  clear hlen hlen6
  induction m with
  | nil => rfl
  | cons b bs ih =>
    simp only [List.map_cons, parseHexGroups]
    rw [parseHexPair_byteToHexChars b (hb b (List.mem_cons_self _ _)),
      ih (fun x hx => hb x (List.mem_cons_of_mem _ hx))]

theorem parseHexPair_lt (f : Str) (b : Nat) (h : parseHexPair f = some b) : b < 256 := by
  unfold parseHexPair at h
  split at h
  · rename_i c1 c2
    split at h
    · rename_i a v ha hv
      have ha16 : a < 16 := by
        unfold hexValCh at ha
        split at ha
        · cases ha; omega
        · split at ha
          · cases ha; omega
          · split at ha
            · cases ha; omega
            · exact absurd ha (by simp)
      have hv16 : v < 16 := by
        unfold hexValCh at hv
        split at hv
        · cases hv; omega
        · split at hv
          · cases hv; omega
          · split at hv
            · cases hv; omega
            · exact absurd hv (by simp)
      cases h; omega
    · exact absurd h (by simp)
  · exact absurd h (by simp)

theorem parseHexGroups_spec (fs : List Str) (bs : List Nat)
    (h : parseHexGroups fs = some bs) : bs.length = fs.length ∧ ∀ b ∈ bs, b < 256 := by
  induction fs generalizing bs with
  | nil => cases h; simp
  | cons f gs ih =>
    unfold parseHexGroups at h
    split at h
    · rename_i b rest hb hrest
      cases h
      obtain ⟨hl, hall⟩ := ih rest hrest
      refine ⟨by simp [hl], ?_⟩
      intro x hx
      rcases List.mem_cons.1 hx with rfl | hx
      · exact parseHexPair_lt f x hb
      · exact hall x hx
    · exact absurd h (by simp)

theorem parseMAC_spec (s : Str) (m : List Nat) (h : parseMAC s = some m) :
    m.length = 6 ∧ ∀ b ∈ m, b < 256 := by
  unfold parseMAC at h
  split at h
  · rename_i hlen
    obtain ⟨hl, hall⟩ := parseHexGroups_spec _ _ h
    exact ⟨hl.trans hlen, hall⟩
  · exact absurd h (by simp)

/-! ## Scanner (`bufio.Scanner` line splitting) -/

/-- `bufio.Scanner` with the default line splitter: the lines of `s`,
without a trailing empty line when `s` ends in a newline. -/
def scanLines (s : Str) : List Str :=
  if s = [] then []
  else
    if (splitOnChar '\n' s).getLast? = some [] then (splitOnChar '\n' s).dropLast
    else splitOnChar '\n' s

theorem splitOnChar_flat (lines : List Str) (h : ∀ l ∈ lines, '\n' ∉ l) :
    splitOnChar '\n' (lines.map (fun l => l ++ ['\n'])).flatten = lines ++ [[]] := by
  induction lines with
  | nil => rfl
  | cons l ls ih =>
    simp only [List.map_cons, List.flatten_cons, List.append_assoc, List.singleton_append]
    rw [splitOnChar_append_sep '\n' l _ (h l (List.mem_cons_self _ _))]
    rw [ih (fun x hx => h x (List.mem_cons_of_mem _ hx))]
    simp

theorem scanLines_flat (lines : List Str) (h : ∀ l ∈ lines, '\n' ∉ l) :
    scanLines (lines.map (fun l => l ++ ['\n'])).flatten = lines := by
  cases lines with
  | nil => rfl
  | cons l ls =>
    have hsplit := splitOnChar_flat (l :: ls) h
    have hne : ((l :: ls).map (fun l => l ++ ['\n'])).flatten ≠ [] := by
      simp only [List.map_cons, List.flatten_cons]
      intro hctr
      have := congrArg List.length hctr
      simp at this
    unfold scanLines
    rw [if_neg hne, hsplit]
    have hlast : ((l :: ls) ++ [([] : Str)]).getLast? = some [] := by
      rw [List.getLast?_append]; rfl
    rw [if_pos hlast, List.dropLast_concat]

/-! ## Error values

One enumeration covering the sentinel errors of the three packages.
The two duplicate-entry errors carry the rendered conflicting entry,
as the Go code wraps it via `fmt.Errorf("%s: %s", ErrDuplicate…, x)`. -/

inductive Err where
  | requestData        -- server.ErrRequestData
  | invalidParam       -- server.ErrInvalidParam
  | missingKeyResearch -- server.ErrMissingKey
  | notSupported       -- server.ErrNotSupported
  | missingHostname    -- etchosts.ErrMissingHostname
  | badIPFormat        -- etchosts/dhcphosts ErrBadIPFormat
  | badEntryFormat     -- etchosts.ErrBadEntryFormat
  | hostnameNotFound   -- etchosts.ErrNotFoundHostname
  | addressNotFound    -- etchosts.ErrNotFoundAddress
  | duplicateHost (what : Str)    -- etchosts duplicate, wrapping the conflicting entry
  | badHWFormat        -- dhcphosts.ErrBadHWAddrFormat
  | netAddrError       -- a net.AddrError from net.ParseMAC (returned raw by dhcphosts.Conf.Add)
  | badBindingFormat   -- dhcphosts.ErrBadBindingFormat
  | hwAddrNotFound     -- dhcphosts.ErrHWAddrNotFound
  | ipAddrNotFound     -- dhcphosts.ErrIPAddrNotFound
  | duplicateBinding (what : Str) -- dhcphosts duplicate, wrapping the conflicting entry
deriving DecidableEq

instance {ε α : Type} [DecidableEq ε] [DecidableEq α] : DecidableEq (Except ε α)
  | .error x, .error y =>
    if h : x = y then .isTrue (by rw [h])
    else .isFalse (by intro hc; injection hc; contradiction)
  | .error _, .ok _ => .isFalse (by intro hc; exact Except.noConfusion hc)
  | .ok _, .error _ => .isFalse (by intro hc; exact Except.noConfusion hc)
  | .ok x, .ok y =>
    if h : x = y then .isTrue (by rw [h])
    else .isFalse (by intro hc; injection hc; contradiction)

/-! ## `pkg/etchosts`: the hostname-keyed binding store -/

namespace Etchosts

/-- `etchosts.Host`: one `/etc/hosts`-style entry.  `address` is the
parsed `net.IP` (`none` models a nil IP). -/
structure Host where
  address : Option Nat
  canonicalHostname : Str
  aliases : List Str
deriving DecidableEq

/-- The zero value `Host{}`. -/
def emptyHost : Host := { address := none, canonicalHostname := [], aliases := [] }

/-- `Host.String()`: `<ip>\t<hostname>[\t<alias> <alias> …]`. -/
def hostString (h : Host) : Str :=
  ipStr h.address ++ '\t' :: h.canonicalHostname ++
    (if h.aliases.isEmpty then [] else '\t' :: joinWith ' ' h.aliases)

/-- Positional alias comparison of `Host.findDuplicate`: scans the
first `min |h| |x|` alias positions and returns the first alias of `x`
equal to the alias of `h` at the same position ([] if none). -/
def aliasMatch : List Str → List Str → Str
  | a :: as, b :: bs => if a = b then b else aliasMatch as bs
  | _, _ => []

/-- `Host.findDuplicate(h, x)`: the conflicting field as a string, []
when the two entries do not collide. -/
def findDuplicate (h x : Host) : Str :=
  if h.canonicalHostname = x.canonicalHostname then x.canonicalHostname
  else if h.address = x.address then ipStr x.address
  else aliasMatch h.aliases x.aliases

/-- `Host.Duplicate`. -/
def hostDup (h x : Host) : Bool := !(findDuplicate h x).isEmpty

/-- The store `etchosts.Conf`: a Go map keyed by canonical hostname,
modelled as a list of entries in insertion order (Go's map iteration
order is unspecified; every property proved here is order-independent
or quantifies over this canonical order). -/
abbrev Conf := List Host

/-- Map lookup `m.hosts[name]`. -/
def confFind (m : Conf) (name : Str) : Option Host :=
  m.find? (fun h => h.canonicalHostname = name)

/-- Map assignment `m.hosts[h.CanonicalHostname] = h`. -/
def insertHost (m : Conf) (h : Host) : Conf :=
  match m with
  | [] => [h]
  | g :: gs =>
    if g.canonicalHostname = h.canonicalHostname then h :: gs else g :: insertHost gs h

/-- `Conf.duplicate`: the first existing entry colliding with `x`. -/
def confDuplicate (m : Conf) (x : Host) : Option Host :=
  m.find? (fun h => hostDup h x)

/-- `Conf.add` (lowercase): duplicate check, then map insert. -/
def confAdd (m : Conf) (h : Host) : Except Err Conf :=
  match confDuplicate m h with
  | some x => .error (.duplicateHost (hostString x))
  | none => .ok (insertHost m h)

/-- Result of the exported `Conf.Add`: Go returns
`(Host, error, bool)` and mutates the receiver. -/
structure AddRes where
  host : Host
  err : Option Err
  present : Bool
  conf : Conf
deriving DecidableEq

/-- `Conf.Add(name, addr, aliases)`.  Note the returned `present` flag
is literally `err != nil` in the source (`return ret, err, err != nil`). -/
def addH (m : Conf) (name addr : Str) (aliases : List Str) : AddRes :=
  if name = [] then ⟨emptyHost, some .missingHostname, false, m⟩
  else
    let ret : Host := { address := parseIPv4 addr, canonicalHostname := name, aliases := aliases }
    if ret.address = none then ⟨ret, some .badIPFormat, false, m⟩
    else
      match confAdd m ret with
      | .error e => ⟨ret, some e, true, m⟩
      | .ok m2 => ⟨ret, none, false, m2⟩

/-- `Conf.GetByHostname`. -/
def getByHostname (m : Conf) (name : Str) : Host × Option Err :=
  match confFind m name with
  | some h => (h, none)
  | none => (emptyHost, some .hostnameNotFound)

/-- `Conf.GetByAddress`: parses the argument, then scans for an entry
whose address equals it. -/
def getByAddress (m : Conf) (addr : Str) : Host × Option Err :=
  match parseIPv4 addr with
  | none => (emptyHost, some .badIPFormat)
  | some v =>
    match m.find? (fun h => h.address = some v) with
    | some h => (h, none)
    | none => (emptyHost, some .addressNotFound)

/-- `Remove` on the hostname store.  Modelled from the spec: the
`etchosts` source in the repository snapshot lacks the `Remove` method
that `server.RequestAddress` calls for rollback; per the spec,
`Remove(key)` "deletes an entry if present" (map delete by key). -/
def removeH (m : Conf) (name : Str) : Conf :=
  m.filter (fun h => !(h.canonicalHostname = name : Bool))

/-- `etchosts.ParseHostString` followed by `ParseHost`, with the error
outcomes collapsed to `none` (the only caller, `Parse`, skips the line
on any error): tabs become spaces, the line splits on spaces, needing
at least an address and a hostname field; the address must parse. -/
def parseHostLine (line : Str) : Option Host :=
  match splitOnChar ' ' (line.map (fun c => if c = '\t' then ' ' else c)) with
  | a :: b :: rest =>
    match parseIPv4 a with
    | none => none
    | some v => some { address := some v, canonicalHostname := b, aliases := rest }
  | _ => none

/-- `etchosts.Parse` over scanned lines: malformed lines and duplicate
entries are skipped, never fatal. -/
def parseLines (lines : List Str) : Conf :=
  lines.foldl
    (fun m line =>
      match parseHostLine line with
      | none => m
      | some h =>
        match confAdd m h with
        | .error _ => m
        | .ok m2 => m2)
    []

/-- `etchosts.Parse` on raw reader content. -/
def parseE (s : Str) : Conf := parseLines (scanLines s)

/-- `Conf.String()`: one rendered entry per line. -/
def confString (m : Conf) : Str :=
  (m.map (fun h => hostString h ++ ['\n'])).flatten

end Etchosts

/-! ## `pkg/dhcphosts`: the MAC-keyed binding store -/

namespace Dhcp

/-- `dhcphosts.Binding`: a MAC/IP pair.  `hw` is the byte list of the
`net.HardwareAddr` ([] models nil); `ip` the parsed `net.IP`. -/
structure Binding where
  hw : List Nat
  ip : Option Nat
deriving DecidableEq

/-- The zero value `Binding{}`. -/
def emptyBinding : Binding := { hw := [], ip := none }

/-- `Binding.String()`: `<mac>,<ip>`. -/
def bindingString (b : Binding) : Str :=
  macToChars b.hw ++ ',' :: ipStr b.ip

/-- `Binding.Duplicate(b, x)`: compares ONLY the hardware addresses
(`b.EqualHW(x.HW)`); the IP is not consulted. -/
def bindingDup (b x : Binding) : Bool := b.hw = x.hw

/-- The store `dhcphosts.Conf`: a Go map keyed by `b.HW.String()`,
modelled as a list of entries in insertion order. -/
abbrev Conf := List Binding

/-- Map assignment `m.bindings[b.HW.String()] = b`. -/
def insertBinding (m : Conf) (b : Binding) : Conf :=
  match m with
  | [] => [b]
  | g :: gs =>
    if macToChars g.hw = macToChars b.hw then b :: gs else g :: insertBinding gs b

/-- `Conf.duplicate`. -/
def confDuplicate (m : Conf) (x : Binding) : Option Binding :=
  m.find? (fun b => bindingDup b x)

/-- `Conf.add` (lowercase). -/
def confAdd (m : Conf) (b : Binding) : Except Err Conf :=
  match confDuplicate m b with
  | some x => .error (.duplicateBinding (bindingString x))
  | none => .ok (insertBinding m b)

/-- Result of the exported `Conf.Add`. -/
structure AddRes where
  binding : Binding
  err : Option Err
  present : Bool
  conf : Conf
deriving DecidableEq

/-- `Conf.Add(mac, ip)`.  As in the hostname store, the `present` flag
is literally `err != nil` in the source. -/
def addB (m : Conf) (mac ip : Str) : AddRes :=
  match parseMAC mac with
  | none => ⟨emptyBinding, some .netAddrError, false, m⟩
  | some hw =>
    let ret : Binding := { hw := hw, ip := parseIPv4 ip }
    if ret.ip = none then ⟨ret, some .badIPFormat, false, m⟩
    else
      match confAdd m ret with
      | .error e => ⟨ret, some e, true, m⟩
      | .ok m2 => ⟨ret, none, false, m2⟩

/-- `Conf.Remove(mac)`: map delete by key, returning the deleted
binding (zero value if absent) and whether a deletion occurred. -/
def removeB (m : Conf) (mac : Str) : Binding × Bool × Conf :=
  match m.find? (fun b => macToChars b.hw = mac) with
  | some b => (b, true, m.filter (fun g => !(macToChars g.hw = mac : Bool)))
  | none => (emptyBinding, false, m)

/-- `Conf.GetByHWAddr`: map lookup by the raw key string. -/
def getByHWAddr (m : Conf) (hw : Str) : Binding × Option Err :=
  match m.find? (fun b => macToChars b.hw = hw) with
  | some b => (b, none)
  | none => (emptyBinding, some .hwAddrNotFound)

/-- `Conf.GetByIP`: parses the argument, then scans for a binding with
that IP. -/
def getByIP (m : Conf) (ip : Str) : Binding × Option Err :=
  match parseIPv4 ip with
  | none => (emptyBinding, some .badIPFormat)
  | some v =>
    match m.find? (fun b => b.ip = some v) with
    | some b => (b, none)
    | none => (emptyBinding, some .ipAddrNotFound)

/-- `dhcphosts.ParseBindingString`: `<mac>,<ip>` with exactly two
comma-separated fields. -/
def parseBindingString (l : Str) : Except Err Binding :=
  match splitOnChar ',' l with
  | [a, b] =>
    match parseMAC a with
    | none => .error .badHWFormat
    | some hw =>
      match parseIPv4 b with
      | none => .error .badIPFormat
      | some v => .ok { hw := hw, ip := some v }
  | _ => .error .badBindingFormat

/-- `dhcphosts.Parse` over scanned lines: a malformed line aborts the
whole parse; the result of `m.add` is discarded, so duplicate lines
are silently skipped. -/
def parseLines : Conf → List Str → Except Err Conf
  | m, [] => .ok m
  | m, l :: ls =>
    match parseBindingString l with
    | .error e => .error e
    | .ok b =>
      parseLines
        (match confAdd m b with
         | .ok m2 => m2
         | .error _ => m) ls

/-- `dhcphosts.Parse` on raw reader content. -/
def parseD (s : Str) : Except Err Conf := parseLines [] (scanLines s)

/-- `Conf.String()`: one rendered binding per line. -/
def confString (m : Conf) : Str :=
  (m.map (fun b => bindingString b ++ ['\n'])).flatten

end Dhcp

/-! ## `iprange`: the address range allocator

`IPRangeAllocator` state.  `startV`/`endV` are the numeric values of
the inclusive range bounds; `size` and `remaining` are the `int64`
counters of the source; `reserved` is the key set of the Go
`map[int64]bool` of reserved offsets-from-start (an offset computed by
`Reserve`/`Release` is an `int64` difference and may be negative, hence
`Finset ℤ`). -/

namespace Iprange

structure Alloc where
  startV : Nat
  endV : Nat
  size : Int
  remaining : Int
  reserved : Finset Int
deriving DecidableEq

/-- `NewAllocator` on a parsed range with `start ≤ end`:
`size = end - start + 1` (the end is inclusive), nothing reserved. -/
def newAllocator (s e : Nat) : Alloc :=
  { startV := s, endV := e, size := (e : Int) - s + 1, remaining := (e : Int) - s + 1,
    reserved := ∅ }

/-- `IPRange.Contains` (byte comparison of equally-normalized
addresses = numeric comparison). -/
def containsIp (a : Alloc) (v : Nat) : Bool := a.startV ≤ v && v ≤ a.endV

/-- The ascending half of `findNextAvailbleIndex`: from `i`, up to
`fuel` candidates (`fuel = size - i` at the call site). -/
def scanUp (res : Finset Int) : Nat → Int → Option Int
  | 0, _ => none
  | fuel + 1, i => if i ∈ res then scanUp res fuel (i + 1) else some i

/-- The descending half: from `i` down, up to `fuel` candidates
(`fuel = idx` at the call site, stopping at 0). -/
def scanDown (res : Finset Int) : Nat → Int → Option Int
  | 0, _ => none
  | fuel + 1, i => if i ∈ res then scanDown res fuel (i - 1) else some i

/-- `findNextAvailbleIndex(idx)`: walk up from `idx` to `size-1`, then
down from `idx-1` to 0; `-1` when everything is reserved. -/
def findNextAvailbleIndex (a : Alloc) (idx : Int) : Int :=
  match scanUp a.reserved (a.size - idx).toNat idx with
  | some i => i
  | none =>
    match scanDown a.reserved idx.toNat (idx - 1) with
    | some i => i
    | none => -1

/-- `Allocate`, with the `rand.Int63n(a.size)` draw passed in as `rnd`
(the Go runtime guarantees `0 ≤ rnd < size`). -/
def allocate (a : Alloc) (rnd : Nat) : Option Nat × Alloc :=
  if a.remaining ≤ 0 then (none, a)
  else
    let idx := findNextAvailbleIndex a rnd
    if idx = -1 then (none, { a with remaining := 0 })
    else
      (some (a.startV + idx.toNat),
        { a with reserved := insert idx a.reserved, remaining := a.remaining - 1 })

/-- `Reserve(ip)`: no-op outside the range or when already reserved. -/
def reserve (a : Alloc) (v : Nat) : Alloc :=
  if containsIp a v then
    if ((v : Int) - a.startV) ∈ a.reserved then a
    else { a with reserved := insert ((v : Int) - a.startV) a.reserved,
                  remaining := a.remaining - 1 }
  else a

/-- `Release(ip)`: clears the reservation if present (no range check in
the source; an out-of-range offset is simply not in the map). -/
def release (a : Alloc) (v : Nat) : Alloc :=
  if ((v : Int) - a.startV) ∈ a.reserved then
    { a with reserved := a.reserved.erase ((v : Int) - a.startV),
             remaining := a.remaining + 1 }
  else a

/-- `Subtract(otherRange)`: reserve every address of `[lo, hi]` that
the allocator's own range contains. -/
def subtract (a : Alloc) (lo hi : Nat) : Alloc :=
  (List.range (hi + 1 - lo)).foldl
    (fun acc k => if containsIp acc (lo + k) then reserve acc (lo + k) else acc) a

/-- The allocator invariant of the spec: correct size shape, remaining
count, and every reserved offset within `[0, size)`. -/
def Inv (a : Alloc) : Prop :=
  a.size = (a.endV : Int) - a.startV + 1 ∧
  a.remaining = a.size - a.reserved.card ∧
  ∀ i ∈ a.reserved, 0 ≤ i ∧ i < a.size

theorem scanUp_some (res : Finset Int) (fuel : Nat) (i j : Int)
    (h : scanUp res fuel i = some j) : i ≤ j ∧ j < i + fuel ∧ j ∉ res := by
  induction fuel generalizing i with
  | zero => exact absurd h (by simp [scanUp])
  | succ fuel ih =>
    unfold scanUp at h
    split at h
    · obtain ⟨h1, h2, h3⟩ := ih (i + 1) h
      exact ⟨by omega, by omega, h3⟩
    · rename_i hres
      cases h
      exact ⟨le_refl _, by omega, hres⟩

theorem scanUp_none (res : Finset Int) (fuel : Nat) (i : Int)
    (h : scanUp res fuel i = none) : ∀ k, i ≤ k → k < i + fuel → k ∈ res := by
  induction fuel generalizing i with
  | zero => intro k h1 h2; omega
  | succ fuel ih =>
    unfold scanUp at h
    split at h
    · rename_i hres
      intro k h1 h2
      rcases eq_or_lt_of_le h1 with rfl | hlt
      · exact hres
      · exact ih (i + 1) h k (by omega) (by omega)
    · exact absurd h (by simp)

theorem scanDown_some (res : Finset Int) (fuel : Nat) (i j : Int)
    (h : scanDown res fuel i = some j) : i - fuel < j ∧ j ≤ i ∧ j ∉ res := by
  induction fuel generalizing i with
  | zero => exact absurd h (by simp [scanDown])
  | succ fuel ih =>
    unfold scanDown at h
    split at h
    · obtain ⟨h1, h2, h3⟩ := ih (i - 1) h
      exact ⟨by omega, by omega, h3⟩
    · rename_i hres
      cases h
      exact ⟨by omega, le_refl _, hres⟩

theorem scanDown_none (res : Finset Int) (fuel : Nat) (i : Int)
    (h : scanDown res fuel i = none) : ∀ k, i - fuel < k → k ≤ i → k ∈ res := by
  induction fuel generalizing i with
  | zero => intro k h1 h2; omega
  | succ fuel ih =>
    unfold scanDown at h
    split at h
    · rename_i hres
      intro k h1 h2
      rcases eq_or_lt_of_le h2 with rfl | hlt
      · exact hres
      · exact ih (i - 1) h k (by omega) (by omega)
    · exact absurd h (by simp)

/-- Behaviour of `findNextAvailbleIndex` for an in-range starting
index: it returns either a free offset in `[0, size)` or `-1`, and
`-1` only when every offset of `[0, size)` is reserved. -/
theorem findNextAvailbleIndex_spec (a : Alloc) (idx : Int)
    (h0 : 0 ≤ idx) (hsz : idx < a.size) :
    (findNextAvailbleIndex a idx ≠ -1 →
      0 ≤ findNextAvailbleIndex a idx ∧ findNextAvailbleIndex a idx < a.size ∧
        findNextAvailbleIndex a idx ∉ a.reserved) ∧
    (findNextAvailbleIndex a idx = -1 → ∀ k, 0 ≤ k → k < a.size → k ∈ a.reserved) := by
  cases hup : scanUp a.reserved (a.size - idx).toNat idx with
  | some j =>
    have hfx : findNextAvailbleIndex a idx = j := by
      unfold findNextAvailbleIndex; rw [hup]
    obtain ⟨h1, h2, h3⟩ := scanUp_some _ _ _ _ hup
    have htn : ((a.size - idx).toNat : Int) = a.size - idx := Int.toNat_of_nonneg (by omega)
    rw [hfx]
    constructor
    · intro _; exact ⟨by omega, by omega, h3⟩
    · intro hctr; omega
  | none =>
    have hupall := scanUp_none _ _ _ hup
    have htn : ((a.size - idx).toNat : Int) = a.size - idx := Int.toNat_of_nonneg (by omega)
    cases hdn : scanDown a.reserved idx.toNat (idx - 1) with
    | some j =>
      have hfx : findNextAvailbleIndex a idx = j := by
        unfold findNextAvailbleIndex; rw [hup, hdn]
      obtain ⟨h1, h2, h3⟩ := scanDown_some _ _ _ _ hdn
      have htn2 : (idx.toNat : Int) = idx := Int.toNat_of_nonneg h0
      rw [hfx]
      constructor
      · intro _; exact ⟨by omega, by omega, h3⟩
      · intro hctr; omega
    | none =>
      have hfx : findNextAvailbleIndex a idx = -1 := by
        unfold findNextAvailbleIndex; rw [hup, hdn]
      have hdnall := scanDown_none _ _ _ hdn
      have htn2 : (idx.toNat : Int) = idx := Int.toNat_of_nonneg h0
      rw [hfx]
      constructor
      · intro hctr; exact absurd rfl hctr
      · intro _ k hk0 hks
        by_cases hk : k ≤ idx - 1
        · exact hdnall k (by omega) hk
        · exact hupall k (by omega) (by omega)

/-- If the invariant holds and addresses remain, `Allocate` succeeds:
it returns the address of a previously-unreserved offset, which it
reserves, decrementing `remaining`. -/
theorem allocate_success (a : Alloc) (rnd : Nat) (hinv : Inv a)
    (hrem : 0 < a.remaining) (hrnd : (rnd : Int) < a.size) :
    ∃ j : Int, 0 ≤ j ∧ j < a.size ∧ j ∉ a.reserved ∧
      allocate a rnd =
        (some (a.startV + j.toNat),
          { a with reserved := insert j a.reserved, remaining := a.remaining - 1 }) := by
  obtain ⟨hsize, hrm, hrange⟩ := hinv
  have hne : ¬ a.remaining ≤ 0 := by omega
  have hspec := findNextAvailbleIndex_spec a rnd (by positivity) hrnd
  have hnem1 : findNextAvailbleIndex a rnd ≠ -1 := by
    intro hctr
    have hall := hspec.2 hctr
    have hsub : Finset.Ico (0 : Int) a.size ⊆ a.reserved := by
      intro k hk
      rw [Finset.mem_Ico] at hk
      exact hall k hk.1 hk.2
    have hcard := Finset.card_le_card hsub
    rw [Int.card_Ico] at hcard
    have hsz : (0 : Int) < a.size := by omega
    have : (a.size - 0).toNat = a.size.toNat := by omega
    omega
  obtain ⟨hj0, hjs, hjres⟩ := hspec.1 hnem1
  refine ⟨findNextAvailbleIndex a rnd, hj0, hjs, hjres, ?_⟩
  unfold allocate
  rw [if_neg hne, if_neg hnem1]

theorem allocate_exhausted (a : Alloc) (rnd : Nat) (hrem : a.remaining ≤ 0) :
    allocate a rnd = (none, a) := by
  unfold allocate
  rw [if_pos hrem]

theorem allocate_inv (a : Alloc) (rnd : Nat) (hinv : Inv a) (hrnd : (rnd : Int) < a.size) :
    Inv (allocate a rnd).2 := by
  by_cases hrem : 0 < a.remaining
  · obtain ⟨j, hj0, hjs, hjres, heq⟩ := allocate_success a rnd hinv hrem hrnd
    rw [heq]
    obtain ⟨hsize, hrm, hrange⟩ := hinv
    refine ⟨hsize, ?_, ?_⟩
    · simp only [Finset.card_insert_of_not_mem hjres]
      push_cast
      omega
    · intro i hi
      rcases Finset.mem_insert.1 hi with rfl | hi
      · exact ⟨hj0, hjs⟩
      · exact hrange i hi
  · rw [allocate_exhausted a rnd (by omega)]
    exact hinv

theorem reserve_inv (a : Alloc) (v : Nat) (hinv : Inv a) : Inv (reserve a v) := by
  obtain ⟨hsize, hrm, hrange⟩ := hinv
  unfold reserve
  split
  · rename_i hcont
    split
    · exact ⟨hsize, hrm, hrange⟩
    · rename_i hnres
      simp only [containsIp, Bool.and_eq_true, decide_eq_true_eq] at hcont
      refine ⟨hsize, ?_, ?_⟩
      · simp only [Finset.card_insert_of_not_mem hnres]
        push_cast
        omega
      · intro i hi
        rcases Finset.mem_insert.1 hi with rfl | hi
        · show 0 ≤ (v : Int) - a.startV ∧ (v : Int) - a.startV < a.size
          omega
        · have := hrange i hi
          show 0 ≤ i ∧ i < a.size
          omega
  · exact ⟨hsize, hrm, hrange⟩

theorem release_inv (a : Alloc) (v : Nat) (hinv : Inv a) : Inv (release a v) := by
  obtain ⟨hsize, hrm, hrange⟩ := hinv
  unfold release
  split
  · rename_i hres
    refine ⟨hsize, ?_, ?_⟩
    · simp only [Finset.card_erase_of_mem hres]
      have hpos : 0 < a.reserved.card := Finset.card_pos.2 ⟨_, hres⟩
      push_cast [Nat.cast_sub hpos]
      omega
    · intro i hi
      exact hrange i (Finset.mem_of_mem_erase hi)
  · exact ⟨hsize, hrm, hrange⟩

theorem subtract_inv (a : Alloc) (lo hi : Nat) (hinv : Inv a) : Inv (subtract a lo hi) := by
  unfold subtract
  induction List.range (hi + 1 - lo) generalizing a with
  | nil => exact hinv
  | cons k ks ih =>
    simp only [List.foldl_cons]
    split
    · exact ih _ (reserve_inv _ _ hinv)
    · exact ih _ hinv

theorem newAllocator_inv (s e : Nat) : Inv (newAllocator s e) := by
  refine ⟨rfl, by simp [newAllocator], by simp [newAllocator]⟩

/-- A run of consecutive `Allocate` calls (one random draw per call). -/
def runAllocs (a : Alloc) : List Nat → List (Option Nat) × Alloc
  | [] => ([], a)
  | r :: rs =>
    let o := (allocate a r).1
    let p := runAllocs (allocate a r).2 rs
    (o :: p.1, p.2)

/-- Everything a run of `Allocate` calls guarantees: the invariant and
the range bounds persist, reservations only grow, `remaining` drops by
the number of successes, each returned address corresponds to an
offset that was free at its call and reserved ever after, the
successful addresses are pairwise distinct, and no call fails while
enough addresses remain. -/
theorem runAllocs_spec (rs : List Nat) (a : Alloc) (hinv : Inv a)
    (hrs : ∀ r ∈ rs, (r : Int) < a.size) :
    Inv (runAllocs a rs).2 ∧
    (runAllocs a rs).2.size = a.size ∧
    (runAllocs a rs).2.startV = a.startV ∧
    (runAllocs a rs).2.endV = a.endV ∧
    a.reserved ⊆ (runAllocs a rs).2.reserved ∧
    (runAllocs a rs).1.length = rs.length ∧
    (runAllocs a rs).2.remaining =
      a.remaining - ((runAllocs a rs).1.filterMap id).length ∧
    (∀ v ∈ (runAllocs a rs).1.filterMap id,
      ((v : Int) - a.startV) ∈ (runAllocs a rs).2.reserved ∧
      ((v : Int) - a.startV) ∉ a.reserved ∧ a.startV ≤ v) ∧
    ((runAllocs a rs).1.filterMap id).Nodup ∧
    ((rs.length : Int) ≤ a.remaining → ∀ o ∈ (runAllocs a rs).1, o.isSome) := by
  induction rs generalizing a with
  | nil =>
    refine ⟨hinv, rfl, rfl, rfl, fun x hx => hx, rfl, by simp [runAllocs], ?_, ?_, ?_⟩ <;>
      simp [runAllocs]
  | cons r rs ih =>
    have hr : (r : Int) < a.size := hrs r (List.mem_cons_self _ _)
    by_cases hrem : 0 < a.remaining
    · obtain ⟨j, hj0, hjs, hjres, heq⟩ := allocate_success a r hinv hrem hr
      set a1 : Alloc :=
        { a with reserved := insert j a.reserved, remaining := a.remaining - 1 } with ha1
      have ho : (allocate a r).1 = some (a.startV + j.toNat) := by rw [heq]
      have ha : (allocate a r).2 = a1 := by rw [heq]
      have hinv1 : Inv a1 := by
        have := allocate_inv a r hinv hr
        rw [ha] at this
        exact this
      have hrs1 : ∀ x ∈ rs, (x : Int) < a1.size :=
        fun x hx => hrs x (List.mem_cons_of_mem _ hx)
      obtain ⟨q1, q2, q3, q4, q5, q6, q7, q8, q9, q10⟩ := ih a1 hinv1 hrs1
      have hrun : runAllocs a (r :: rs) =
          ((some (a.startV + j.toNat)) :: (runAllocs a1 rs).1, (runAllocs a1 rs).2) := by
        simp only [runAllocs, ho, ha]
      rw [hrun]
      simp only [List.filterMap_cons, id_eq]
      have hjt : ((a.startV + j.toNat : Nat) : Int) - (a.startV : Int) = j := by omega
      refine ⟨q1, q2, q3.trans rfl, q4, ?_, by simp [q6], ?_, ?_, ?_, ?_⟩
      · exact fun x hx => q5 (Finset.mem_insert_of_mem hx)
      · simp only [List.length_cons]
        rw [q7]
        have hrm1 : a1.remaining = a.remaining - 1 := rfl
        omega
      · intro v hv
        rcases List.mem_cons.1 hv with rfl | hv
        · refine ⟨?_, ?_, by omega⟩
          · rw [hjt]; exact q5 (Finset.mem_insert_self _ _)
          · rw [hjt]; exact hjres
        · obtain ⟨m1, m2, m3⟩ := q8 v hv
          exact ⟨m1, fun hctr => m2 (Finset.mem_insert_of_mem hctr), m3⟩
      · rw [List.nodup_cons]
        refine ⟨?_, q9⟩
        intro hctr
        obtain ⟨m1, m2, m3⟩ := q8 _ hctr
        apply m2
        show ((a.startV + j.toNat : Nat) : Int) - (a.startV : Int) ∈ insert j a.reserved
        rw [hjt]
        exact Finset.mem_insert_self _ _
      · intro hlen o hmem
        rcases List.mem_cons.1 hmem with rfl | hmem
        · simp
        · refine q10 ?_ o hmem
          show (rs.length : Int) ≤ a.remaining - 1
          simp only [List.length_cons] at hlen
          omega
    · -- the pool is exhausted for good: this call and every later one fails
      have ho := allocate_exhausted a r (by omega)
      have hrun : runAllocs a (r :: rs) = (none :: (runAllocs a rs).1, (runAllocs a rs).2) := by
        simp only [runAllocs, ho]
      obtain ⟨q1, q2, q3, q4, q5, q6, q7, q8, q9, q10⟩ :=
        ih a hinv (fun x hx => hrs x (List.mem_cons_of_mem _ hx))
      rw [hrun]
      simp only [List.filterMap_cons, id_eq]
      refine ⟨q1, q2, q3, q4, q5, by simp [q6], q7, q8, q9, ?_⟩
      intro hlen
      exfalso
      simp only [List.length_cons] at hlen
      omega

/-- The allocator's mutating operations. -/
inductive AOp where
  | aAlloc (rnd : Nat)
  | aReserve (v : Nat)
  | aRelease (v : Nat)
  | aSubtract (lo hi : Nat)
deriving DecidableEq

/-- Apply one operation (the result of `Allocate` is discarded; only
the state matters here). -/
def applyOp (a : Alloc) : AOp → Alloc
  | .aAlloc rnd => (allocate a rnd).2
  | .aReserve v => reserve a v
  | .aRelease v => release a v
  | .aSubtract lo hi => subtract a lo hi

/-- A sequence of operations. -/
def runOps (a : Alloc) (ops : List AOp) : Alloc := ops.foldl applyOp a

theorem allocate_size (a : Alloc) (rnd : Nat) : (allocate a rnd).2.size = a.size := by
  unfold allocate
  dsimp only
  split
  · rfl
  · split <;> rfl

theorem reserve_size (a : Alloc) (v : Nat) : (reserve a v).size = a.size := by
  unfold reserve
  split
  · split <;> rfl
  · rfl

theorem release_size (a : Alloc) (v : Nat) : (release a v).size = a.size := by
  unfold release
  split <;> rfl

theorem subtract_size (a : Alloc) (lo hi : Nat) : (subtract a lo hi).size = a.size := by
  unfold subtract
  induction List.range (hi + 1 - lo) generalizing a with
  | nil => rfl
  | cons k ks ih =>
    simp only [List.foldl_cons]
    split
    · rw [ih, reserve_size]
    · exact ih a

theorem applyOp_size (a : Alloc) (op : AOp) : (applyOp a op).size = a.size := by
  cases op with
  | aAlloc rnd => exact allocate_size a rnd
  | aReserve v => exact reserve_size a v
  | aRelease v => exact release_size a v
  | aSubtract lo hi => exact subtract_size a lo hi

theorem applyOp_inv (a : Alloc) (op : AOp) (hinv : Inv a)
    (hr : ∀ rnd, op = .aAlloc rnd → (rnd : Int) < a.size) : Inv (applyOp a op) := by
  cases op with
  | aAlloc rnd => exact allocate_inv a rnd hinv (hr rnd rfl)
  | aReserve v => exact reserve_inv a v hinv
  | aRelease v => exact release_inv a v hinv
  | aSubtract lo hi => exact subtract_inv a lo hi hinv

theorem runOps_size (a : Alloc) (ops : List AOp) : (runOps a ops).size = a.size := by
  induction ops generalizing a with
  | nil => rfl
  | cons op ops ih =>
    show (runOps (applyOp a op) ops).size = a.size
    rw [ih, applyOp_size]

theorem runOps_inv (a : Alloc) (ops : List AOp) (hinv : Inv a)
    (hr : ∀ rnd, AOp.aAlloc rnd ∈ ops → (rnd : Int) < a.size) : Inv (runOps a ops) := by
  induction ops generalizing a with
  | nil => exact hinv
  | cons op ops ih =>
    show Inv (runOps (applyOp a op) ops)
    refine ih (applyOp a op)
      (applyOp_inv a op hinv (fun rnd hop => hr rnd (hop ▸ List.mem_cons_self _ _))) ?_
    intro rnd hmem
    rw [applyOp_size]
    exact hr rnd (List.mem_cons_of_mem _ hmem)

end Iprange

/-! ## `pkg/server`: the lease manager -/

namespace Server

open Iprange

/-- `pb.Match`: the tri-state match level (`PART` is `pb.Match_PARTIAL`). -/
inductive MatchLevel where
  | NONE
  | PART
  | FULL
deriving DecidableEq

/-- `pb.Key`: which field a request resolves by. -/
inductive PKey where
  | HOSTNAME
  | MACADDR
  | IPADDR
deriving DecidableEq

/-- `pb.Address`: the wire triple of strings. -/
structure Address where
  hostname : Str
  macaddr : Str
  ipaddr : Str
deriving DecidableEq

/-- `pb.AddressReply`.  `addr` is a nilable pointer; `key`'s proto zero
value is the first enum member. -/
structure Reply where
  addr : Option Address
  mtch : MatchLevel
  key : PKey
deriving DecidableEq

/-- The in-memory state of `server.DNSMasqMgr` relevant to its
operations: the two binding stores and the allocator.  Paths, file
metadata, the journal logger and the channels are I/O plumbing
modelled separately (`storeLoopRun`). -/
structure Mgr where
  nameMap : Etchosts.Conf
  addrMap : Dhcp.Conf
  ipAlloc : Alloc
deriving DecidableEq

/-- `server.handleDuplicate`: degrade the match level (NONE→PARTIAL
recording the key, PARTIAL→FULL, FULL unchanged). -/
def handleDuplicate (r : Reply) (k : PKey) : Reply :=
  match r.mtch with
  | .NONE => { r with mtch := .PART, key := k }
  | .PART => { r with mtch := .FULL }
  | .FULL => r

/-- The outcome of a gRPC handler: Go's `(*pb.AddressReply, error)`
pair, both nilable. -/
abbrev HandlerOut := Option Reply × Option Err

/-- `DNSMasqMgr.RequestAddress` (with the allocator's random draw made
explicit).  Field-faithful translation of `alter.go`:

* empty hostname or MAC fail with `ErrRequestData`;
* an omitted IP is drawn from the allocator, and the resulting
  `net.IP` — possibly nil — is rendered into the request
  (`req.Addr.Ipaddr = ipAddr.String()`, giving `"<nil>"` on
  exhaustion, with no nil check);
* a supplied IP that does not parse returns `(nil, err)` with `err`
  still nil (the success-with-no-data path of the source); a parsed
  one is reserved;
* the hostname-store add aborts on any error (including duplicates,
  since `Add` returns `err != nil` as its `present` flag);
* the MAC-store add aborts likewise, rolling back the hostname insert;
* otherwise the reply carries the request triple and the match level
  accumulated by `handleDuplicate`.

`requestCore` is the body of `RequestAddress` after the IP string
`ipaddr2` and the updated allocator `alloc2` have been determined: the
two store inserts, the rollback, and the reply assembly. -/
def requestCore (m : Mgr) (hostname macaddr ipaddr2 : Str) (alloc2 : Alloc) :
    HandlerOut × Mgr :=
  let ea := Etchosts.addH m.nameMap hostname ipaddr2 []
  match ea.err with
  | some e => ((none, some e), { m with ipAlloc := alloc2 })
  | none =>
    let ret1 : Reply := { addr := none, mtch := .NONE, key := .HOSTNAME }
    let ret2 := if ea.present then handleDuplicate ret1 .HOSTNAME else ret1
    let da := Dhcp.addB m.addrMap macaddr ipaddr2
    match da.err with
    | some e =>
      ((none, some e),
        { m with nameMap := Etchosts.removeH ea.conf hostname, ipAlloc := alloc2 })
    | none =>
      let ret3 := if da.present then handleDuplicate ret2 .MACADDR else ret2
      ((some { ret3 with addr := some ⟨hostname, macaddr, ipaddr2⟩ }, none),
        { nameMap := ea.conf, addrMap := da.conf, ipAlloc := alloc2 })

def requestAddress (m : Mgr) (hostname macaddr ipaddr : Str) (rnd : Nat) : HandlerOut × Mgr :=
  if hostname = [] ∨ macaddr = [] then ((none, some .requestData), m)
  else if ipaddr = [] then
    -- omitted IP: draw from the allocator; the result is rendered with
    -- no nil check (`req.Addr.Ipaddr = ipAddr.String()`)
    requestCore m hostname macaddr (ipStr (allocate m.ipAlloc rnd).1)
      (allocate m.ipAlloc rnd).2
  else
    match parseIPv4 ipaddr with
    | none => ((none, none), m)  -- `return nil, err` with err = nil: silent no-data success
    | some v => requestCore m hostname macaddr ipaddr (reserve m.ipAlloc v)

/-- `DNSMasqMgr.lookupAddressByHostname`. -/
def lookupAddressByHostname (m : Mgr) (hostname : Str) : Reply × Option Err :=
  if hostname = [] then (⟨none, .NONE, .HOSTNAME⟩, some .missingKeyResearch)
  else
    match Etchosts.getByHostname m.nameMap hostname with
    | (_, some e) => (⟨none, .NONE, .HOSTNAME⟩, some e)
    | (host, none) =>
      let rep1 : Reply :=
        ⟨some ⟨host.canonicalHostname, [], ipStr host.address⟩, .PART, .HOSTNAME⟩
      match Dhcp.getByIP m.addrMap (ipStr host.address) with
      | (_, some _) => (rep1, none)
      | (b, none) =>
        (⟨some ⟨host.canonicalHostname, macToChars b.hw, ipStr host.address⟩, .FULL, .HOSTNAME⟩,
          none)

/-- `DNSMasqMgr.lookupAddressByMacaddr`. -/
def lookupAddressByMacaddr (m : Mgr) (macaddr : Str) : Reply × Option Err :=
  if macaddr = [] then (⟨none, .NONE, .HOSTNAME⟩, some .missingKeyResearch)
  else
    match Dhcp.getByHWAddr m.addrMap macaddr with
    | (_, some e) => (⟨none, .NONE, .HOSTNAME⟩, some e)
    | (b, none) =>
      let rep1 : Reply := ⟨some ⟨[], macToChars b.hw, ipStr b.ip⟩, .PART, .HOSTNAME⟩
      match Etchosts.getByAddress m.nameMap (ipStr b.ip) with
      | (_, some _) => (rep1, none)
      | (host, none) =>
        (⟨some ⟨host.canonicalHostname, macToChars b.hw, ipStr b.ip⟩, .FULL, .HOSTNAME⟩, none)

/-- `DNSMasqMgr.lookupAddressByIpaddr`. -/
def lookupAddressByIpaddr (m : Mgr) (ipaddr : Str) : Reply × Option Err :=
  if ipaddr = [] then (⟨none, .NONE, .HOSTNAME⟩, some .missingKeyResearch)
  else
    match Etchosts.getByAddress m.nameMap ipaddr with
    | (_, some e) => (⟨none, .NONE, .HOSTNAME⟩, some e)
    | (host, none) =>
      let rep1 : Reply :=
        ⟨some ⟨host.canonicalHostname, [], ipStr host.address⟩, .PART, .HOSTNAME⟩
      match Dhcp.getByIP m.addrMap (ipStr host.address) with
      | (_, some _) => (rep1, none)
      | (b, none) =>
        (⟨some ⟨host.canonicalHostname, macToChars b.hw, ipStr host.address⟩, .FULL, .HOSTNAME⟩,
          none)

/-- `DNSMasqMgr.LookupAddress` dispatch. -/
def lookupAddress (m : Mgr) (k : PKey) (a : Address) : Reply × Option Err :=
  match k with
  | .HOSTNAME => lookupAddressByHostname m a.hostname
  | .MACADDR => lookupAddressByMacaddr m a.macaddr
  | .IPADDR => lookupAddressByIpaddr m a.ipaddr

/-- The in-memory part of `server.NewDNSMasqMgr`: range bounds already
parsed (`iprange.ParseIPRange` is address-string plumbing), both files
parsed — the hostname file never fatally, the leases file aborting
construction on a malformed line — and a fresh allocator.  No
reservation seeding of any kind. -/
def newMgr (s e : Nat) (hostsContent leasesContent : Str) : Except Err Mgr :=
  match Dhcp.parseD leasesContent with
  | .error er => .error er
  | .ok am => .ok { nameMap := Etchosts.parseE hostsContent, addrMap := am,
                    ipAlloc := newAllocator s e }

/-- `DNSMasqMgr.storeLoop`, driven by the list of values received from
`flushChan`: a `true` performs a store and loops, a `false` makes the
function return.  The result is `none` while the loop would still be
blocked waiting on the channel, and `some (stores, sentDone)` when the
function has returned, where `stores` counts executed flushes and
`sentDone` reports whether `doneChan <- true` ran.  In the source that
send sits after the infinite `for` loop, whose only exit is the
`return` statement inside it, so the returning path yields
`sentDone = false`. -/
def storeLoopRun : List Bool → Option (Nat × Bool)
  | [] => none
  | b :: rest =>
    if b then (storeLoopRun rest).map (fun p => (p.1 + 1, p.2))
    else some (0, false)

/-- `DNSMasqMgr.Close` sends `false` on `flushChan` and then blocks on
`<-dmm.doneChan`: it can only return if the loop run sends the done
signal. -/
def closeReturns (pending : List Bool) : Prop :=
  ∃ n, storeLoopRun (pending ++ [false]) = some (n, true)

end Server

/-! ## Supporting lemmas on the codecs and stores -/

theorem mem_joinWith (sep : Char) (parts : List Str) (c : Char)
    (h : c ∈ joinWith sep parts) : c = sep ∨ ∃ f ∈ parts, c ∈ f := by
  induction parts with
  | nil => exact absurd h (List.not_mem_nil c)
  | cons f fs ih =>
    cases fs with
    | nil => exact Or.inr ⟨f, List.mem_cons_self _ _, h⟩
    | cons g gs =>
      rw [joinWith] at h
      rcases List.mem_append.1 h with hf | hrest
      · exact Or.inr ⟨f, List.mem_cons_self _ _, hf⟩
      · rcases List.mem_cons.1 hrest with rfl | hjoin
        · exact Or.inl rfl
        · rcases ih hjoin with rfl | ⟨x, hx, hcx⟩
          · exact Or.inl rfl
          · exact Or.inr ⟨x, List.mem_cons_of_mem _ hx, hcx⟩

theorem mem_octetToChars_isDigit {n : Nat} (hn : n < 256) {c : Char}
    (hc : c ∈ octetToChars n) : isDigitCh c = true := by
  have hall := octetToChars_all_digit n hn
  rw [List.all_eq_true] at hall
  exact hall c hc

/-- Every character of a dotted quad is a digit or the dot. -/
theorem mem_ipToChars (v : Nat) (c : Char) (h : c ∈ ipToChars v) :
    isDigitCh c = true ∨ c = '.' := by
  rcases mem_joinWith '.' _ c h with rfl | ⟨f, hf, hcf⟩
  · exact Or.inr rfl
  · simp only [List.mem_cons, List.not_mem_nil, or_false] at hf
    rcases hf with rfl | rfl | rfl | rfl <;>
      exact Or.inl (mem_octetToChars_isDigit (Nat.mod_lt _ (by norm_num)) hcf)

/-- Is `c` a lowercase hex digit (the alphabet of rendered MACs)? -/
def isHexCh (c : Char) : Bool :=
  (48 ≤ c.toNat && c.toNat ≤ 57) || (97 ≤ c.toNat && c.toNat ≤ 102)

set_option maxRecDepth 40000 in
theorem byteToHexChars_all_hex : ∀ b < 256, (byteToHexChars b).all isHexCh = true := by
  decide

theorem isHexCh_ne_sep (c : Char) (h : isHexCh c = true) :
    c ≠ ':' ∧ c ≠ ',' ∧ c ≠ '\t' ∧ c ≠ ' ' ∧ c ≠ '\n' := by
  refine ⟨?_, ?_, ?_, ?_, ?_⟩ <;> (intro hc; subst hc; simp [isHexCh] at h)

/-- Every character of a rendered MAC is a hex digit or the colon. -/
theorem mem_macToChars (m : List Nat) (hb : ∀ b ∈ m, b < 256) (c : Char)
    (h : c ∈ macToChars m) : isHexCh c = true ∨ c = ':' := by
  rcases mem_joinWith ':' _ c h with rfl | ⟨f, hf, hcf⟩
  · exact Or.inr rfl
  · rw [List.mem_map] at hf
    obtain ⟨b, hbm, rfl⟩ := hf
    have hall := byteToHexChars_all_hex b (hb b hbm)
    rw [List.all_eq_true] at hall
    exact Or.inl (hall c hcf)

/-- Valid 6-byte MACs render to distinct strings. -/
theorem macToChars_inj (m1 m2 : List Nat)
    (h1 : ∀ b ∈ m1, b < 256) (h2 : ∀ b ∈ m2, b < 256)
    (hl1 : m1.length = 6) (hl2 : m2.length = 6)
    (heq : macToChars m1 = macToChars m2) : m1 = m2 := by
  have r1 := parseMAC_macToChars m1 h1 hl1
  have r2 := parseMAC_macToChars m2 h2 hl2
  rw [heq, r2] at r1
  exact (Option.some_inj.1 r1).symm

namespace Etchosts

theorem insertHost_append (m : Conf) (h : Host)
    (hk : ∀ g ∈ m, g.canonicalHostname ≠ h.canonicalHostname) :
    insertHost m h = m ++ [h] := by
  induction m with
  | nil => rfl
  | cons g gs ih =>
    rw [insertHost, if_neg (hk g (List.mem_cons_self _ _)),
      ih (fun x hx => hk x (List.mem_cons_of_mem _ hx))]
    rfl

/-- A non-colliding entry with a nonempty hostname has a key different
from every existing entry's. -/
theorem hostDup_false_key (g h : Host) (hno : hostDup g h = false)
    (hname : h.canonicalHostname ≠ []) :
    g.canonicalHostname ≠ h.canonicalHostname := by
  intro hctr
  rw [hostDup, findDuplicate, if_pos hctr] at hno
  simp only [Bool.not_eq_false', List.isEmpty_iff] at hno
  exact hname hno

theorem confAdd_of_no_dup (m : Conf) (h : Host)
    (hno : ∀ g ∈ m, hostDup g h = false) (hname : h.canonicalHostname ≠ []) :
    confAdd m h = .ok (m ++ [h]) := by
  have hfind : confDuplicate m h = none := by
    rw [confDuplicate, List.find?_eq_none]
    exact fun g hg => by simp [hno g hg]
  rw [confAdd, hfind,
    insertHost_append m h (fun g hg => hostDup_false_key g h (hno g hg) hname)]

/-- `Conf.Add` on valid arguments that collide with nothing: appends
the entry, returns no error and a false `present`. -/
theorem addH_success (m : Conf) (name addr : Str) (aliases : List Str) (v : Nat)
    (hname : name ≠ []) (hparse : parseIPv4 addr = some v)
    (hno : ∀ g ∈ m, hostDup g ⟨some v, name, aliases⟩ = false) :
    addH m name addr aliases =
      ⟨⟨some v, name, aliases⟩, none, false, m ++ [⟨some v, name, aliases⟩]⟩ := by
  rw [addH, if_neg hname]
  simp only [hparse]
  rw [if_neg (by simp), confAdd_of_no_dup m _ hno hname]

/-- A fresh entry (new hostname, new address, no aliases) collides
with nothing. -/
theorem hostDup_false_of_fresh (g : Host) (name : Str) (v : Nat)
    (hn : g.canonicalHostname ≠ name) (ha : g.address ≠ some v) :
    hostDup g ⟨some v, name, []⟩ = false := by
  rw [hostDup, findDuplicate]
  rw [if_neg hn, if_neg ha]
  have : aliasMatch g.aliases [] = [] := by
    cases g.aliases <;> rfl
  rw [this]
  rfl

end Etchosts

namespace Dhcp

theorem insertBinding_append (m : Conf) (b : Binding)
    (hk : ∀ g ∈ m, macToChars g.hw ≠ macToChars b.hw) :
    insertBinding m b = m ++ [b] := by
  induction m with
  | nil => rfl
  | cons g gs ih =>
    rw [insertBinding, if_neg (hk g (List.mem_cons_self _ _)),
      ih (fun x hx => hk x (List.mem_cons_of_mem _ hx))]
    rfl

theorem confAddB_of_no_dup (m : Conf) (b : Binding)
    (hno : ∀ g ∈ m, macToChars g.hw ≠ macToChars b.hw) :
    confAdd m b = .ok (m ++ [b]) := by
  have hfind : confDuplicate m b = none := by
    rw [confDuplicate, List.find?_eq_none]
    intro g hg
    simp only [bindingDup, decide_eq_true_eq, Bool.not_eq_true]
    intro hctr
    exact hno g hg (by rw [hctr])
  rw [confAdd, hfind, insertBinding_append m b hno]

/-- `Conf.Add` on valid arguments whose MAC collides with nothing:
appends the binding. -/
theorem addB_success (m : Conf) (mac ip : Str) (hw : List Nat) (v : Nat)
    (hmac : parseMAC mac = some hw) (hip : parseIPv4 ip = some v)
    (hno : ∀ g ∈ m, macToChars g.hw ≠ macToChars hw) :
    addB m mac ip = ⟨⟨hw, some v⟩, none, false, m ++ [⟨hw, some v⟩]⟩ := by
  rw [addB]
  simp only [hmac, hip]
  rw [if_neg (by simp), confAddB_of_no_dup m _ hno]

end Dhcp

/-! ## Round-trip support: whitespace-free fields and line parsing -/

/-- A string free of the hostname file's separators. -/
def CleanStr (s : Str) : Prop := ∀ c ∈ s, c ≠ ' ' ∧ c ≠ '\t' ∧ c ≠ '\n'

instance (s : Str) : Decidable (CleanStr s) := by
  unfold CleanStr
  infer_instance

theorem space_not_mem_ipToChars (v : Nat) : ' ' ∉ ipToChars v := by
  intro h
  rcases mem_ipToChars v _ h with hd | hdot
  · exact (isDigitCh_ne_sep _ hd).2.2.2.2.1 rfl
  · simp at hdot

theorem tab_not_mem_ipToChars (v : Nat) : '\t' ∉ ipToChars v := by
  intro h
  rcases mem_ipToChars v _ h with hd | hdot
  · exact (isDigitCh_ne_sep _ hd).2.2.2.1 rfl
  · simp at hdot

theorem newline_not_mem_ipToChars (v : Nat) : '\n' ∉ ipToChars v := by
  intro h
  rcases mem_ipToChars v _ h with hd | hdot
  · exact (isDigitCh_ne_sep _ hd).2.2.2.2.2 rfl
  · simp at hdot

theorem map_tabspace_id (s : Str) (h : '\t' ∉ s) :
    s.map (fun c => if c = '\t' then ' ' else c) = s := by
  induction s with
  | nil => rfl
  | cons c cs ih =>
    have hc : c ≠ '\t' := fun hh => h (hh ▸ List.mem_cons_self c cs)
    rw [List.map_cons, if_neg hc, ih (fun hm => h (List.mem_cons_of_mem _ hm))]

namespace Etchosts

/-- Re-parsing a rendered entry whose fields are whitespace-free
recovers the entry. -/
theorem parseHostLine_hostString (h : Host) (v : Nat)
    (haddr : h.address = some v) (hv : v < 2 ^ 32)
    (hcn : CleanStr h.canonicalHostname)
    (hal : ∀ al ∈ h.aliases, CleanStr al) :
    parseHostLine (hostString h) = some h := by
  obtain ⟨addr0, name, als⟩ := h
  obtain rfl : addr0 = some v := haddr
  have hipsp : ' ' ∉ ipToChars v := space_not_mem_ipToChars v
  have hiptab : '\t' ∉ ipToChars v := tab_not_mem_ipToChars v
  replace hcn : CleanStr name := hcn
  replace hal : ∀ al ∈ als, CleanStr al := hal
  have hnametab : '\t' ∉ name := fun hm => (hcn _ hm).2.1 rfl
  have hnamesp : ' ' ∉ name := fun hm => (hcn _ hm).1 rfl
  cases als with
  | nil =>
    show parseHostLine (ipToChars v ++ '\t' :: name ++ []) = _
    rw [List.append_nil, parseHostLine, List.map_append, map_tabspace_id _ hiptab,
      List.map_cons, if_pos rfl, map_tabspace_id _ hnametab]
    rw [splitOnChar_append_sep ' ' _ _ hipsp, splitOnChar_of_no_sep ' ' _ hnamesp]
    dsimp only
    rw [parseIPv4_ipToChars v hv]
  | cons a as =>
    have hane : a :: as ≠ ([] : List Str) := by simp
    have hjointab : '\t' ∉ joinWith ' ' (a :: as) := by
      intro hm
      rcases mem_joinWith ' ' _ _ hm with hsep | ⟨f, hf, hcf⟩
      · simp at hsep
      · exact (hal f hf _ hcf).2.1 rfl
    show parseHostLine ((ipToChars v ++ '\t' :: name) ++ '\t' :: joinWith ' ' (a :: as)) = _
    rw [parseHostLine, List.append_assoc, List.cons_append]
    rw [List.map_append, map_tabspace_id _ hiptab, List.map_cons, if_pos rfl]
    rw [List.map_append, map_tabspace_id _ hnametab, List.map_cons, if_pos rfl,
      map_tabspace_id _ hjointab]
    rw [splitOnChar_append_sep ' ' _ _ hipsp]
    rw [splitOnChar_append_sep ' ' _ _ hnamesp]
    rw [splitOnChar_joinWith ' ' _ hane (fun f hf hcm => (hal f hf _ hcm).1 rfl)]
    dsimp only
    rw [parseIPv4_ipToChars v hv]

/-- What a successful `Conf.Add` tells about its arguments and result. -/
theorem addH_ok (m : Conf) (name addr : Str) (aliases : List Str)
    (h : (addH m name addr aliases).err = none) :
    ∃ v, name ≠ [] ∧ parseIPv4 addr = some v ∧
      (∀ g ∈ m, hostDup g ⟨some v, name, aliases⟩ = false) ∧
      (addH m name addr aliases).conf = m ++ [⟨some v, name, aliases⟩] := by
  by_cases hname : name = []
  · rw [addH, if_pos hname] at h
    exact absurd h (by simp)
  · cases hv : parseIPv4 addr with
    | none =>
      rw [addH, if_neg hname] at h
      simp only [hv] at h
      simp at h
    | some v =>
      refine ⟨v, hname, rfl, ?_⟩
      rw [addH, if_neg hname] at h ⊢
      simp only [hv] at h ⊢
      rw [if_neg (by simp)] at h ⊢
      cases hd : confDuplicate m ⟨some v, name, aliases⟩ with
      | some x =>
        rw [confAdd, hd] at h
        exact absurd h (by simp)
      | none =>
        have hno : ∀ g ∈ m, hostDup g ⟨some v, name, aliases⟩ = false := by
          intro g hg
          have := List.find?_eq_none.1 hd g hg
          simpa using this
        refine ⟨hno, ?_⟩
        rw [confAdd, hd]
        show (insertHost m _) = _
        exact insertHost_append m _ (fun g hg => hostDup_false_key g _ (hno g hg) hname)

/-- The stores reachable by successful `Add` calls alone. -/
inductive BuiltE : Conf → Prop where
  | nil : BuiltE []
  | step (m : Conf) (name addr : Str) (aliases : List Str) :
      BuiltE m → (addH m name addr aliases).err = none →
      BuiltE (addH m name addr aliases).conf

/-- An `Add`-built hostname store is pairwise collision-free and each
entry carries a nonempty hostname and a parsed address. -/
theorem builtE_spec (m : Conf) (hb : BuiltE m) :
    List.Pairwise (fun g h => hostDup g h = false) m ∧
      ∀ h ∈ m, h.canonicalHostname ≠ [] ∧ ∃ v, h.address = some v ∧ v < 2 ^ 32 := by
  induction hb with
  | nil => exact ⟨List.Pairwise.nil, by simp⟩
  | step m name addr aliases hb herr ih =>
    obtain ⟨v, hname, hparse, hno, hconf⟩ := addH_ok m name addr aliases herr
    rw [hconf]
    obtain ⟨ihp, ihv⟩ := ih
    constructor
    · rw [List.pairwise_append]
      refine ⟨ihp, by simp, ?_⟩
      intro g hg x hx
      rw [List.mem_singleton.1 hx]
      exact hno g hg
    · intro h hm
      rcases List.mem_append.1 hm with hm | hm
      · exact ihv h hm
      · rw [List.mem_singleton.1 hm]
        exact ⟨hname, v, rfl, parseIPv4_lt addr v hparse⟩

/-- Newlines never occur in a rendered entry with whitespace-free
fields. -/
theorem newline_not_mem_hostString (h : Host) (v : Nat) (haddr : h.address = some v)
    (hcn : CleanStr h.canonicalHostname) (hal : ∀ al ∈ h.aliases, CleanStr al) :
    '\n' ∉ hostString h := by
  intro hm
  rw [hostString, haddr] at hm
  rcases List.mem_append.1 hm with hm | hm
  · rcases List.mem_append.1 hm with hm | hm
    · exact newline_not_mem_ipToChars v hm
    · rcases List.mem_cons.1 hm with hc | hm
      · simp at hc
      · exact (hcn _ hm).2.2 rfl
  · split at hm
    · exact absurd hm (List.not_mem_nil _)
    · rcases List.mem_cons.1 hm with hc | hm
      · simp at hc
      · rcases mem_joinWith ' ' _ _ hm with hc | ⟨f, hf, hcf⟩
        · simp at hc
        · exact (hal f hf _ hcf).2.2 rfl

/-- Re-parsing rendered lines re-adds every entry in order. -/
theorem parseLines_map_hostString (rest : Conf) (acc : Conf)
    (hval : ∀ h ∈ rest, h.canonicalHostname ≠ [] ∧ ∃ v, h.address = some v ∧ v < 2 ^ 32)
    (hclean : ∀ h ∈ rest, CleanStr h.canonicalHostname ∧ ∀ al ∈ h.aliases, CleanStr al)
    (hpair : List.Pairwise (fun g h => hostDup g h = false) rest)
    (hacc : ∀ g ∈ acc, ∀ h ∈ rest, hostDup g h = false) :
    List.foldl
      (fun m line =>
        match parseHostLine line with
        | none => m
        | some h =>
          match confAdd m h with
          | .error _ => m
          | .ok m2 => m2)
      acc (rest.map hostString) = acc ++ rest := by
  induction rest generalizing acc with
  | nil => simp
  | cons h hs ih =>
    obtain ⟨hname, v, haddr, hv⟩ := hval h (List.mem_cons_self _ _)
    obtain ⟨hcn, hals⟩ := hclean h (List.mem_cons_self _ _)
    rw [List.map_cons, List.foldl_cons,
      parseHostLine_hostString h v haddr hv hcn hals]
    dsimp only
    rw [List.pairwise_cons] at hpair
    have hdupacc : ∀ g ∈ acc, hostDup g h = false :=
      fun g hg => hacc g hg h (List.mem_cons_self _ _)
    rw [confAdd_of_no_dup acc h hdupacc hname]
    show List.foldl _ (acc ++ [h]) (hs.map hostString) = _
    rw [ih (acc ++ [h])
      (fun x hx => hval x (List.mem_cons_of_mem _ hx))
      (fun x hx => hclean x (List.mem_cons_of_mem _ hx))
      hpair.2 ?hacc2]
    · simp
    case hacc2 =>
      intro g hg x hx
      rcases List.mem_append.1 hg with hg | hg
      · exact hacc g hg x (List.mem_cons_of_mem _ hx)
      · rw [List.mem_singleton.1 hg]
        exact hpair.1 x hx

/-- The hostname-store round trip: parsing the rendered text of an
`Add`-built store with whitespace-free hostnames and aliases
reproduces the store exactly. -/
theorem parseE_confString (m : Conf) (hb : BuiltE m)
    (hclean : ∀ h ∈ m, CleanStr h.canonicalHostname ∧ ∀ al ∈ h.aliases, CleanStr al) :
    parseE (confString m) = m := by
  obtain ⟨hpair, hval⟩ := builtE_spec m hb
  have hcomp : List.map (fun h => hostString h ++ ['\n']) m =
      List.map (fun l => l ++ ['\n']) (m.map hostString) := by
    rw [List.map_map]
    rfl
  have hnl : ∀ l ∈ m.map hostString, '\n' ∉ l := by
    intro l hl
    rw [List.mem_map] at hl
    obtain ⟨h, hm, rfl⟩ := hl
    obtain ⟨_, v, haddr, _⟩ := hval h hm
    exact newline_not_mem_hostString h v haddr (hclean h hm).1 (hclean h hm).2
  rw [parseE, confString, hcomp, scanLines_flat _ hnl, parseLines]
  exact parseLines_map_hostString m [] hval hclean hpair (by simp)

end Etchosts

namespace Dhcp

theorem comma_not_mem_macToChars (hw : List Nat) (hb : ∀ b ∈ hw, b < 256) :
    ',' ∉ macToChars hw := by
  intro hm
  rcases mem_macToChars hw hb _ hm with hx | hc
  · exact (isHexCh_ne_sep _ hx).2.1 rfl
  · simp at hc

theorem newline_not_mem_macToChars (hw : List Nat) (hb : ∀ b ∈ hw, b < 256) :
    '\n' ∉ macToChars hw := by
  intro hm
  rcases mem_macToChars hw hb _ hm with hx | hc
  · exact (isHexCh_ne_sep _ hx).2.2.2.2 rfl
  · simp at hc

theorem comma_not_mem_ipToChars (v : Nat) : ',' ∉ ipToChars v := by
  intro h
  rcases mem_ipToChars v _ h with hd | hdot
  · exact (isDigitCh_ne_sep _ hd).2.2.1 rfl
  · simp at hdot

/-- Re-parsing a rendered binding recovers it. -/
theorem parseBindingString_bindingString (b : Binding) (v : Nat)
    (hip : b.ip = some v) (hv : v < 2 ^ 32)
    (hhw : ∀ x ∈ b.hw, x < 256) (hlen : b.hw.length = 6) :
    parseBindingString (bindingString b) = .ok b := by
  obtain ⟨hw, ip0⟩ := b
  obtain rfl : ip0 = some v := hip
  replace hhw : ∀ x ∈ hw, x < 256 := hhw
  replace hlen : hw.length = 6 := hlen
  show parseBindingString (macToChars hw ++ ',' :: ipToChars v) = _
  rw [parseBindingString,
    splitOnChar_append_sep ',' _ _ (comma_not_mem_macToChars hw hhw),
    splitOnChar_of_no_sep ',' _ (comma_not_mem_ipToChars v)]
  dsimp only
  rw [parseMAC_macToChars hw hhw hlen]
  dsimp only
  rw [parseIPv4_ipToChars v hv]

theorem newline_not_mem_bindingString (b : Binding) (v : Nat) (hip : b.ip = some v)
    (hhw : ∀ x ∈ b.hw, x < 256) : '\n' ∉ bindingString b := by
  intro hm
  rw [bindingString, hip] at hm
  rcases List.mem_append.1 hm with hm | hm
  · exact newline_not_mem_macToChars b.hw hhw hm
  · rcases List.mem_cons.1 hm with hc | hm
    · simp at hc
    · exact newline_not_mem_ipToChars v hm

/-- What a successful `Conf.Add` tells about its arguments and result. -/
theorem addB_ok (m : Conf) (mac ip : Str) (h : (addB m mac ip).err = none) :
    ∃ hw v, parseMAC mac = some hw ∧ parseIPv4 ip = some v ∧
      (∀ g ∈ m, g.hw ≠ hw) ∧
      (addB m mac ip).conf = insertBinding m ⟨hw, some v⟩ := by
  cases hmac : parseMAC mac with
  | none =>
    rw [addB] at h
    simp only [hmac] at h
    simp at h
  | some hw =>
    cases hv : parseIPv4 ip with
    | none =>
      rw [addB] at h
      simp only [hmac, hv] at h
      simp at h
    | some v =>
      refine ⟨hw, v, rfl, rfl, ?_⟩
      rw [addB] at h ⊢
      simp only [hmac, hv] at h ⊢
      rw [if_neg (by simp)] at h ⊢
      cases hd : confDuplicate m ⟨hw, some v⟩ with
      | some x =>
        rw [confAdd, hd] at h
        exact absurd h (by simp)
      | none =>
        have hno : ∀ g ∈ m, g.hw ≠ hw := by
          intro g hg
          have := List.find?_eq_none.1 hd g hg
          simpa [bindingDup] using this
        refine ⟨hno, ?_⟩
        rw [confAdd, hd]

/-- The stores reachable by successful `Add` calls alone. -/
inductive BuiltD : Conf → Prop where
  | nil : BuiltD []
  | step (m : Conf) (mac ip : Str) :
      BuiltD m → (addB m mac ip).err = none → BuiltD (addB m mac ip).conf

/-- An `Add`-built MAC store has pairwise-distinct hardware addresses
and each entry carries a valid 6-byte MAC and a parsed IP. -/
theorem builtD_spec (m : Conf) (hb : BuiltD m) :
    List.Pairwise (fun g b => g.hw ≠ b.hw) m ∧
      ∀ b ∈ m, (b.hw.length = 6 ∧ ∀ x ∈ b.hw, x < 256) ∧
        ∃ v, b.ip = some v ∧ v < 2 ^ 32 := by
  induction hb with
  | nil => exact ⟨List.Pairwise.nil, by simp⟩
  | step m mac ip hb herr ih =>
    obtain ⟨hw, v, hmac, hip, hno, hconf⟩ := addB_ok m mac ip herr
    obtain ⟨ihp, ihv⟩ := ih
    obtain ⟨hlen, hbyte⟩ := parseMAC_spec mac hw hmac
    have happ : (addB m mac ip).conf = m ++ [⟨hw, some v⟩] := by
      rw [hconf]
      refine insertBinding_append m _ ?_
      intro g hg heq
      exact hno g hg
        (macToChars_inj g.hw hw (ihv g hg).1.2 hbyte (ihv g hg).1.1 hlen heq)
    rw [happ]
    constructor
    · rw [List.pairwise_append]
      refine ⟨ihp, by simp, ?_⟩
      intro g hg x hx
      rw [List.mem_singleton.1 hx]
      exact hno g hg
    · intro b hm2
      rcases List.mem_append.1 hm2 with hm2 | hm2
      · exact ihv b hm2
      · rw [List.mem_singleton.1 hm2]
        exact ⟨⟨hlen, hbyte⟩, v, rfl, parseIPv4_lt ip v hip⟩

/-- Re-parsing rendered binding lines re-adds every binding in order. -/
theorem parseLines_map_bindingString (rest : Conf) (acc : Conf)
    (hval : ∀ b ∈ rest, (b.hw.length = 6 ∧ ∀ x ∈ b.hw, x < 256) ∧
      ∃ v, b.ip = some v ∧ v < 2 ^ 32)
    (hpair : List.Pairwise (fun g b => g.hw ≠ b.hw) rest)
    (haccv : ∀ g ∈ acc, g.hw.length = 6 ∧ ∀ x ∈ g.hw, x < 256)
    (hacc : ∀ g ∈ acc, ∀ b ∈ rest, g.hw ≠ b.hw) :
    parseLines acc (rest.map bindingString) = .ok (acc ++ rest) := by
  induction rest generalizing acc with
  | nil => simp [parseLines]
  | cons b bs ih =>
    obtain ⟨⟨hlen, hbyte⟩, v, hip, hv⟩ := hval b (List.mem_cons_self _ _)
    rw [List.map_cons, parseLines,
      parseBindingString_bindingString b v hip hv hbyte hlen]
    have hnok : ∀ g ∈ acc, macToChars g.hw ≠ macToChars b.hw := by
      intro g hg heq
      exact hacc g hg b (List.mem_cons_self _ _)
        (macToChars_inj g.hw b.hw (haccv g hg).2 hbyte (haccv g hg).1 hlen heq)
    dsimp only
    rw [confAddB_of_no_dup acc b hnok]
    rw [List.pairwise_cons] at hpair
    show parseLines (acc ++ [b]) (bs.map bindingString) = _
    rw [ih (acc ++ [b])
      (fun x hx => hval x (List.mem_cons_of_mem _ hx))
      hpair.2 ?haccv2 ?hacc2]
    · simp
    case haccv2 =>
      intro g hg
      rcases List.mem_append.1 hg with hg | hg
      · exact haccv g hg
      · rw [List.mem_singleton.1 hg]
        exact ⟨hlen, hbyte⟩
    case hacc2 =>
      intro g hg x hx
      rcases List.mem_append.1 hg with hg | hg
      · exact hacc g hg x (List.mem_cons_of_mem _ hx)
      · rw [List.mem_singleton.1 hg]
        exact hpair.1 x hx

/-- The MAC-store round trip: parsing the rendered text of an
`Add`-built store reproduces the store exactly, with no extra
conditions. -/
theorem parseD_confString (m : Conf) (hb : BuiltD m) :
    parseD (confString m) = .ok m := by
  obtain ⟨hpair, hval⟩ := builtD_spec m hb
  have hcomp : List.map (fun b => bindingString b ++ ['\n']) m =
      List.map (fun l => l ++ ['\n']) (m.map bindingString) := by
    rw [List.map_map]
    rfl
  have hnl : ∀ l ∈ m.map bindingString, '\n' ∉ l := by
    intro l hl
    rw [List.mem_map] at hl
    obtain ⟨b, hm2, rfl⟩ := hl
    obtain ⟨⟨_, hbyte⟩, v, hip, _⟩ := hval b hm2
    exact newline_not_mem_bindingString b v hip hbyte
  rw [parseD, confString, hcomp, scanLines_flat _ hnl]
  have := parseLines_map_bindingString m [] hval hpair (by simp) (by simp)
  rw [this]
  rfl

end Dhcp

/-! ## Concrete fixtures for the claim theorems -/

open Iprange Server

/-- "host1" -/
def fxHost1 : Str := ['h', 'o', 's', 't', '1']

/-- "host2" -/
def fxHost2 : Str := ['h', 'o', 's', 't', '2']

/-- "aa:bb:cc:dd:ee:01" -/
def fxMac1 : Str :=
  ['a', 'a', ':', 'b', 'b', ':', 'c', 'c', ':', 'd', 'd', ':', 'e', 'e', ':', '0', '1']

/-- "aa:bb:cc:dd:ee:02" -/
def fxMac2 : Str :=
  ['a', 'a', ':', 'b', 'b', ':', 'c', 'c', ':', 'd', 'd', ':', 'e', 'e', ':', '0', '2']

/-- The bytes of `fxMac1`. -/
def fxHw1 : List Nat := [0xaa, 0xbb, 0xcc, 0xdd, 0xee, 0x01]

/-- The bytes of `fxMac2`. -/
def fxHw2 : List Nat := [0xaa, 0xbb, 0xcc, 0xdd, 0xee, 0x02]

/-- "10.0.0.9" = 167772169 -/
def fxIp9 : Str := ['1', '0', '.', '0', '.', '0', '.', '9']

/-- "10.0.0.20" -/
def fxIp20 : Str := ['1', '0', '.', '0', '.', '0', '.', '2', '0']

/-! ## C5 — the persistence loop and `Close` -/

/-- C5: the claim says the store loop signals completion so that
`Close` returns.  In the source the `doneChan <- true` send stands
after the infinite `for`, whose only exit is the `return` inside it:
the send is unreachable.  This theorem evaluates the code at the
failing input: for every queue of pending flush messages, the loop run
triggered by `Close`'s `false` does terminate, but with the done
signal never sent, so `Close`, blocked on `<-dmm.doneChan`, never
returns. -/
theorem claim_c5_close_never_returns (pending : List Bool) :
    (∃ n, storeLoopRun (pending ++ [false]) = some (n, false)) ∧
      ¬ closeReturns pending := by
  have hrun : ∃ n, storeLoopRun (pending ++ [false]) = some (n, false) := by
    induction pending with
    | nil => exact ⟨0, rfl⟩
    | cons b rest ih =>
      cases b with
      | false => exact ⟨0, rfl⟩
      | true =>
        obtain ⟨n, hn⟩ := ih
        refine ⟨n + 1, ?_⟩
        show (storeLoopRun (rest ++ [false])).map _ = _
        rw [hn]
        rfl
  obtain ⟨n, hn⟩ := hrun
  refine ⟨⟨n, hn⟩, ?_⟩
  rintro ⟨k, hk⟩
  rw [hn] at hk
  cases hk

/-! ## C1 — duplicate hostname aborts `RequestAddress` -/

/-- A name store already holding `host1 ↦ 10.0.0.9`. -/
def c1Mgr : Mgr :=
  { nameMap := [⟨some 167772169, fxHost1, []⟩], addrMap := [],
    ipAlloc := newAllocator 167772169 167772170 }

/-- C1: the claim (and the spec) say a `RequestAddress` whose hostname
already has an entry with a different value does not abort and returns
`PARTIAL` or `FULL`.  The code evaluated at such a call: the
hostname-store `Add` returns its duplicate error together with
`present = err != nil`, and `RequestAddress` returns `(nil, err)` —
the call aborts with the duplicate error and a nil reply (the
`handleDuplicate` degrade branch is dead code).  The store does still
hold exactly its one entry for the hostname. -/
theorem claim_c1_duplicate_hostname_aborts :
    (requestAddress c1Mgr fxHost1 fxMac1 fxIp20 0).1.1 = none ∧
    (requestAddress c1Mgr fxHost1 fxMac1 fxIp20 0).1.2 =
      some (.duplicateHost (Etchosts.hostString ⟨some 167772169, fxHost1, []⟩)) ∧
    (requestAddress c1Mgr fxHost1 fxMac1 fxIp20 0).2.nameMap =
      [⟨some 167772169, fxHost1, []⟩] := by
  refine ⟨?_, ?_, ?_⟩ <;> decide

/-! ## C6 — what the MAC store's duplicate check actually compares -/

/-- A binding store holding `aa:bb:cc:dd:ee:01 ↦ 10.0.0.9`, built by a
successful `Add`. -/
def c6Conf : Dhcp.Conf := (Dhcp.addB [] fxMac1 fxIp9).conf

/-- C6 counterexample: the claim says an add is rejected as a
duplicate if (and only if) an existing entry matches the MAC **or the
IP** of the new binding.  Adding a second binding with a fresh MAC but
the very IP already bound succeeds: `Binding.Duplicate` compares only
the hardware addresses. -/
theorem claim_c6_counterexample :
    c6Conf = [⟨fxHw1, some 167772169⟩] ∧
    (Dhcp.addB c6Conf fxMac2 fxIp9).err = none ∧
    (Dhcp.addB c6Conf fxMac2 fxIp9).conf =
      [⟨fxHw1, some 167772169⟩, ⟨fxHw2, some 167772169⟩] := by
  refine ⟨?_, ?_, ?_⟩ <;> decide

/-- C6 amended: for arguments that parse, `Add` rejects the binding as
a duplicate exactly when some existing entry matches its MAC; the IP
is not consulted. -/
theorem claim_c6_amended (m : Dhcp.Conf) (mac ip : Str) (hw : List Nat) (v : Nat)
    (hmac : parseMAC mac = some hw) (hip : parseIPv4 ip = some v) :
    (Dhcp.addB m mac ip).err ≠ none ↔ ∃ b ∈ m, b.hw = hw := by
  rw [Dhcp.addB]
  simp only [hmac, hip]
  rw [if_neg (by simp)]
  cases hd : Dhcp.confDuplicate m ⟨hw, some v⟩ with
  | some x =>
    rw [Dhcp.confAdd, hd]
    dsimp only
    constructor
    · intro _
      refine ⟨x, List.mem_of_find?_eq_some hd, ?_⟩
      have := List.find?_some hd
      simpa [Dhcp.bindingDup] using this
    · intro _
      simp
  | none =>
    rw [Dhcp.confAdd, hd]
    dsimp only
    constructor
    · intro hctr
      exact absurd rfl hctr
    · rintro ⟨b, hbm, rfl⟩
      have := List.find?_eq_none.1 hd b hbm
      simp [Dhcp.bindingDup] at this

/-- C6 witness: a same-MAC add is rejected. -/
theorem claim_c6_witness :
    (Dhcp.addB c6Conf fxMac1 fxIp20).err ≠ none :=
  (claim_c6_amended c6Conf fxMac1 fxIp20 fxHw1 167772180 (by decide) (by decide)).2
    ⟨⟨fxHw1, some 167772169⟩, by decide, rfl⟩

/-! ## C4 — no reservation seeding at construction -/

/-- "aa:bb:cc:dd:ee:01,10.0.0.2\n": a leases file binding the first
address of the range 10.0.0.2–10.0.0.5. -/
def c4Leases : Str :=
  fxMac1 ++ [','] ++ ['1', '0', '.', '0', '.', '0', '.', '2'] ++ ['\n']

/-- The manager built from an empty hosts file and `c4Leases` over the
range 10.0.0.2–10.0.0.5. -/
def c4M : Mgr :=
  match newMgr 167772162 167772165 [] c4Leases with
  | .ok m => m
  | .error _ => ⟨[], [], newAllocator 0 0⟩

/-- C4 counterexample: the claim says every IP of a parsed
binding-store entry is reserved in the allocator, so `Allocate` never
returns an already-bound address.  The constructor performs no such
seeding: after construction the reserved set is empty, and the very
first `Allocate` (random draw 0) returns 10.0.0.2, the address the
parsed binding store already maps. -/
theorem claim_c4_counterexample :
    newMgr 167772162 167772165 [] c4Leases = .ok c4M ∧
    (∃ b ∈ c4M.addrMap, b.ip = some 167772162) ∧
    c4M.ipAlloc.reserved = ∅ ∧
    (allocate c4M.ipAlloc 0).1 = some 167772162 := by
  refine ⟨by decide, ⟨⟨fxHw1, some 167772162⟩, by decide, by decide⟩, by decide, by decide⟩

/-- C4 amended: construction seeds nothing — whatever the two parsed
files hold, the manager's allocator is exactly the fresh allocator of
the range (empty reserved set, full remaining count). -/
theorem claim_c4_amended (s e : Nat) (hosts leases : Str) (m : Mgr)
    (h : newMgr s e hosts leases = .ok m) : m.ipAlloc = newAllocator s e := by
  rw [newMgr] at h
  cases hd : Dhcp.parseD leases with
  | error er => rw [hd] at h; cases h
  | ok am =>
    rw [hd] at h
    cases h
    rfl

/-- C4 witness. -/
theorem claim_c4_witness : c4M.ipAlloc = newAllocator 167772162 167772165 :=
  claim_c4_amended 167772162 167772165 [] c4Leases c4M (by decide)

/-! ## C10 — the `alreadyPresent` flag versus the returned error -/

theorem addH_present_err (m : Etchosts.Conf) (name addr : Str) (aliases : List Str)
    (h : (Etchosts.addH m name addr aliases).present = true) :
    (Etchosts.addH m name addr aliases).err ≠ none := by
  simp only [Etchosts.addH] at h ⊢
  split at h
  · cases h
  · rename_i hn
    split at h
    · cases h
    · rename_i ha
      rw [if_neg hn, if_neg ha]
      cases hc : Etchosts.confAdd m
          { address := parseIPv4 addr, canonicalHostname := name, aliases := aliases } with
      | error e => exact fun hctr => Option.noConfusion hctr
      | ok m2 =>
        rw [hc] at h
        exact Bool.noConfusion h

theorem addB_present_err (m : Dhcp.Conf) (mac ip : Str)
    (h : (Dhcp.addB m mac ip).present = true) :
    (Dhcp.addB m mac ip).err ≠ none := by
  simp only [Dhcp.addB] at h ⊢
  split at h
  · cases h
  · rename_i hw hmac
    split at h
    · cases h
    · rename_i ha
      rw [if_neg ha]
      cases hc : Dhcp.confAdd m { hw := hw, ip := parseIPv4 ip } with
      | error e => exact fun hctr => Option.noConfusion hctr
      | ok m2 =>
        rw [hc] at h
        exact Bool.noConfusion h

theorem requestCore_success_mtch (m : Mgr) (hostname mac ip2 : Str) (a2 : Alloc)
    (r : Reply) (oe : Option Err) (m2 : Mgr)
    (h : requestCore m hostname mac ip2 a2 = ((some r, oe), m2)) :
    r.mtch = .NONE ∧ r.key = .HOSTNAME ∧ oe = none := by
  simp only [requestCore] at h
  cases he : (Etchosts.addH m.nameMap hostname ip2 []).err with
  | some e =>
    rw [he] at h
    exact absurd (congrArg (fun p => p.1.1) h) (by simp)
  | none =>
    rw [he] at h
    have hep : (Etchosts.addH m.nameMap hostname ip2 []).present = false := by
      by_contra hctr
      exact addH_present_err m.nameMap hostname ip2 []
        (Bool.not_eq_false _ ▸ hctr) he
    rw [hep] at h
    cases hd : (Dhcp.addB m.addrMap mac ip2).err with
    | some e =>
      rw [hd] at h
      exact absurd (congrArg (fun p => p.1.1) h) (by simp)
    | none =>
      rw [hd] at h
      have hdp : (Dhcp.addB m.addrMap mac ip2).present = false := by
        by_contra hctr
        exact addB_present_err m.addrMap mac ip2 (Bool.not_eq_false _ ▸ hctr) hd
      rw [hdp] at h
      rw [if_neg (by simp : ¬ (false = true)), if_neg (by simp : ¬ (false = true))] at h
      have h1 := congrArg (fun p => p.1.1) h
      have h2 := congrArg (fun p => p.1.2) h
      have hr := Option.some_inj.1 h1
      refine ⟨?_, ?_, h2.symm⟩ <;> rw [← hr]

/-- C10 counterexample: the claim's "exactly when" fails on arguments
that do not validate — a malformed IP makes `Add` return a non-nil
error with `alreadyPresent = false`. -/
theorem claim_c10_counterexample :
    (Dhcp.addB [] fxMac1 ['n', 'o', 'p', 'e']).err = some .badIPFormat ∧
    (Dhcp.addB [] fxMac1 ['n', 'o', 'p', 'e']).present = false := by
  refine ⟨?_, ?_⟩ <;> decide

/-- C10 amended: on both stores `alreadyPresent = true` implies a
non-nil error (the converse fails for arguments that do not validate,
see the counterexample); consequently a successful add never reports a
pre-existing duplicate, and the `handleDuplicate` branch of
`RequestAddress` is unreachable — every successful reply carries match
level `NONE` and an untouched key field. -/
theorem claim_c10_amended :
    (∀ (m : Etchosts.Conf) (name addr : Str) (al : List Str),
      (Etchosts.addH m name addr al).present = true →
        (Etchosts.addH m name addr al).err ≠ none) ∧
    (∀ (m : Dhcp.Conf) (mac ip : Str),
      (Dhcp.addB m mac ip).present = true → (Dhcp.addB m mac ip).err ≠ none) ∧
    (∀ (m : Mgr) (hostname mac ip : Str) (rnd : Nat) (r : Reply) (oe : Option Err)
      (m2 : Mgr), requestAddress m hostname mac ip rnd = ((some r, oe), m2) →
        r.mtch = .NONE ∧ r.key = .HOSTNAME) := by
  refine ⟨addH_present_err, addB_present_err, ?_⟩
  intro m hostname mac ip rnd r oe m2 h
  rw [requestAddress] at h
  split at h
  · exact absurd (congrArg (fun p => p.1.1) h) (by simp)
  · split at h
    · obtain ⟨h1, h2, _⟩ := requestCore_success_mtch _ _ _ _ _ _ _ _ h
      exact ⟨h1, h2⟩
    · cases hp : parseIPv4 ip with
      | none =>
        rw [hp] at h
        exact absurd (congrArg (fun p => p.1.1) h) (by simp)
      | some v =>
        rw [hp] at h
        obtain ⟨h1, h2, _⟩ := requestCore_success_mtch _ _ _ _ _ _ _ _ h
        exact ⟨h1, h2⟩

/-- A fresh manager for the C10 witness. -/
def c10Mgr : Mgr := { nameMap := [], addrMap := [], ipAlloc := newAllocator 167772169 167772170 }

/-- The reply of the successful request in the C10 witness. -/
def c10Reply : Reply := ⟨some ⟨fxHost1, fxMac1, fxIp9⟩, .NONE, .HOSTNAME⟩

/-- C10 witness: a duplicate-hostname add and a duplicate-MAC add both
return `present = true` with a non-nil error, and a fully successful
`RequestAddress` reply has match `NONE`. -/
theorem claim_c10_witness :
    ((Etchosts.addH [⟨some 167772169, fxHost1, []⟩] fxHost1 fxIp20 []).present = true ∧
      (Etchosts.addH [⟨some 167772169, fxHost1, []⟩] fxHost1 fxIp20 []).err ≠ none) ∧
    ((Dhcp.addB c6Conf fxMac1 fxIp20).present = true ∧
      (Dhcp.addB c6Conf fxMac1 fxIp20).err ≠ none) ∧
    c10Reply.mtch = .NONE :=
  ⟨⟨by decide, claim_c10_amended.1 _ fxHost1 fxIp20 [] (by decide)⟩,
   ⟨by decide, claim_c10_amended.2.1 c6Conf fxMac1 fxIp20 (by decide)⟩,
   (claim_c10_amended.2.2 c10Mgr fxHost1 fxMac1 fxIp9 0 c10Reply none
     (requestAddress c10Mgr fxHost1 fxMac1 fxIp9 0).2 (by decide)).1⟩

/-! ## C2 — allocator uniqueness and exhaustion -/

theorem length_filterMap_id_of_isSome {α : Type} (os : List (Option α))
    (h : ∀ o ∈ os, o.isSome = true) : (os.filterMap id).length = os.length := by
  induction os with
  | nil => rfl
  | cons o os ih =>
    cases o with
    | none => exact absurd (h none (List.mem_cons_self _ _)) (by simp)
    | some a =>
      simp only [List.filterMap_cons, id_eq, List.length_cons]
      rw [ih (fun x hx => h x (List.mem_cons_of_mem _ hx))]

/-- C2: over any run of `Allocate` calls on a fresh allocator (no
releases), the successfully returned addresses are pairwise distinct;
and a run of exactly `Size()` calls succeeds throughout, after which
the next call signals exhaustion by returning the nil value. -/
theorem claim_c2_allocate_unique_exhaustion (s e : Nat) (hse : s ≤ e) (rs : List Nat)
    (hr : ∀ r ∈ rs, (r : Int) < (newAllocator s e).size) (r2 : Nat) :
    ((runAllocs (newAllocator s e) rs).1.filterMap id).Nodup ∧
    (rs.length = e + 1 - s →
      (∀ o ∈ (runAllocs (newAllocator s e) rs).1, o.isSome = true) ∧
      (allocate (runAllocs (newAllocator s e) rs).2 r2).1 = none) := by
  obtain ⟨q1, q2, q3, q4, q5, q6, q7, q8, q9, q10⟩ :=
    runAllocs_spec rs (newAllocator s e) (newAllocator_inv s e) hr
  refine ⟨q9, ?_⟩
  intro hlen
  have hrem : (newAllocator s e).remaining = (e : Int) - s + 1 := rfl
  have hall : ∀ o ∈ (runAllocs (newAllocator s e) rs).1, o.isSome = true := by
    refine q10 ?_
    rw [hrem]
    omega
  refine ⟨hall, ?_⟩
  have hcnt := length_filterMap_id_of_isSome _ hall
  rw [hcnt, q6] at q7
  have hz : (runAllocs (newAllocator s e) rs).2.remaining ≤ 0 := by
    rw [q7, hrem]
    omega
  rw [allocate_exhausted _ r2 hz]

/-- C2 witness: range of size 4, four draws, then exhaustion. -/
theorem claim_c2_witness :
    ((runAllocs (newAllocator 2 5) [0, 0, 0, 0]).1.filterMap id).Nodup ∧
    (∀ o ∈ (runAllocs (newAllocator 2 5) [0, 0, 0, 0]).1, o.isSome = true) ∧
    (allocate (runAllocs (newAllocator 2 5) [0, 0, 0, 0]).2 1).1 = none := by
  have h := claim_c2_allocate_unique_exhaustion 2 5 (by norm_num) [0, 0, 0, 0]
    (by decide) 1
  exact ⟨h.1, (h.2 (by norm_num)).1, (h.2 (by norm_num)).2⟩

/-! ## C8 — the allocator state invariant -/

/-- C8: from a fresh allocator, any sequence of `Allocate`, `Reserve`,
`Release` and `Subtract` operations preserves the invariant:
`remaining = size - |reserved|`, and every reserved offset lies in
`[0, size)`.  (The hypothesis on the random draws is what
`rand.Int63n(a.size)` guarantees.) -/
theorem claim_c8_allocator_invariant (s e : Nat) (ops : List AOp)
    (hr : ∀ rnd, AOp.aAlloc rnd ∈ ops → (rnd : Int) < (newAllocator s e).size) :
    (runOps (newAllocator s e) ops).remaining =
      (runOps (newAllocator s e) ops).size -
        (runOps (newAllocator s e) ops).reserved.card ∧
    ∀ i ∈ (runOps (newAllocator s e) ops).reserved,
      0 ≤ i ∧ i < (runOps (newAllocator s e) ops).size := by
  obtain ⟨_, h2, h3⟩ := runOps_inv (newAllocator s e) ops (newAllocator_inv s e) hr
  exact ⟨h2, h3⟩

/-- C8 witness: a mixed operation sequence on the range 2–5. -/
theorem claim_c8_witness :
    (runOps (newAllocator 2 5)
        [AOp.aAlloc 1, AOp.aReserve 4, AOp.aSubtract 5 6, AOp.aRelease 4]).remaining =
      (runOps (newAllocator 2 5)
        [AOp.aAlloc 1, AOp.aReserve 4, AOp.aSubtract 5 6, AOp.aRelease 4]).size -
        (runOps (newAllocator 2 5)
          [AOp.aAlloc 1, AOp.aReserve 4, AOp.aSubtract 5 6, AOp.aRelease 4]).reserved.card ∧
    ∀ i ∈ (runOps (newAllocator 2 5)
        [AOp.aAlloc 1, AOp.aReserve 4, AOp.aSubtract 5 6, AOp.aRelease 4]).reserved,
      0 ≤ i ∧ i < (runOps (newAllocator 2 5)
        [AOp.aAlloc 1, AOp.aReserve 4, AOp.aSubtract 5 6, AOp.aRelease 4]).size :=
  claim_c8_allocator_invariant 2 5
    [AOp.aAlloc 1, AOp.aReserve 4, AOp.aSubtract 5 6, AOp.aRelease 4]
    (by
      intro rnd hmem
      simp only [List.mem_cons, List.not_mem_nil, or_false] at hmem
      rcases hmem with h | h | h | h <;> first
        | (cases h; decide)
        | cases h)

/-! ## C7 — lookup by hostname: FULL versus PARTIAL -/

/-- C7: whenever the name store maps hostname `hn` to the entry `h`
with address `p`, `lookupAddressByHostname` succeeds: if the address
store resolves `p` to a binding the reply is `FULL` with the binding's
MAC populated; if it does not, the reply is `PARTIAL` with only the
name-side fields (MAC empty). -/
theorem claim_c7_lookup_by_hostname (m : Mgr) (hn : Str) (h : Etchosts.Host) (p : Nat)
    (hne : hn ≠ []) (hfind : Etchosts.confFind m.nameMap hn = some h)
    (haddr : h.address = some p) (hp : p < 2 ^ 32) :
    (∀ b, m.addrMap.find? (fun x => x.ip = some p) = some b →
      lookupAddressByHostname m hn =
        (⟨some ⟨h.canonicalHostname, macToChars b.hw, ipToChars p⟩, .FULL, .HOSTNAME⟩,
          none)) ∧
    (m.addrMap.find? (fun x => x.ip = some p) = none →
      lookupAddressByHostname m hn =
        (⟨some ⟨h.canonicalHostname, [], ipToChars p⟩, .PART, .HOSTNAME⟩, none)) := by
  have hget : Etchosts.getByHostname m.nameMap hn = (h, none) := by
    rw [Etchosts.getByHostname, hfind]
  constructor
  · intro b hb
    have hgb : Dhcp.getByIP m.addrMap (ipToChars p) = (b, none) := by
      rw [Dhcp.getByIP, parseIPv4_ipToChars p hp]
      dsimp only
      rw [hb]
    rw [lookupAddressByHostname, if_neg hne, hget]
    dsimp only
    rw [haddr]
    show (match Dhcp.getByIP m.addrMap (ipToChars p) with
      | (_, some _) => _
      | (b, none) => _) = _
    rw [hgb]
    rfl
  · intro hb
    have hgb : Dhcp.getByIP m.addrMap (ipToChars p) =
        (Dhcp.emptyBinding, some .ipAddrNotFound) := by
      rw [Dhcp.getByIP, parseIPv4_ipToChars p hp]
      dsimp only
      rw [hb]
    rw [lookupAddressByHostname, if_neg hne, hget]
    dsimp only
    rw [haddr]
    show (match Dhcp.getByIP m.addrMap (ipToChars p) with
      | (_, some _) => _
      | (b, none) => _) = _
    rw [hgb]
    rfl

/-- The hostname file `10.0.0.9\thost1\n`. -/
def c7Hosts : Str := fxIp9 ++ ['\t'] ++ fxHost1 ++ ['\n']

/-- The MAC file line `01:23:45:67:89:ab,10.0.0.9\n`. -/
def c7Leases : Str :=
  ['0', '1', ':', '2', '3', ':', '4', '5', ':', '6', '7', ':', '8', '9', ':', 'a', 'b',
   ',', '1', '0', '.', '0', '.', '0', '.', '9', '\n']

/-- The bytes of `01:23:45:67:89:ab`. -/
def c7Hw : List Nat := [0x01, 0x23, 0x45, 0x67, 0x89, 0xab]

/-- Section 8's PARTIAL scenario: hostname file only. -/
def c7MgrA : Mgr :=
  { nameMap := Etchosts.parseE c7Hosts, addrMap := [],
    ipAlloc := newAllocator 167772169 167772170 }

/-- Section 8's FULL scenario: hostname file plus matching MAC file. -/
def c7MgrB : Mgr :=
  { nameMap := Etchosts.parseE c7Hosts,
    addrMap := [⟨c7Hw, some 167772169⟩],
    ipAlloc := newAllocator 167772169 167772170 }

/-- C7 witness: both concrete scenarios of the spec's section 8. -/
theorem claim_c7_witness :
    lookupAddressByHostname c7MgrA fxHost1 =
      (⟨some ⟨fxHost1, [], ipToChars 167772169⟩, .PART, .HOSTNAME⟩, none) ∧
    lookupAddressByHostname c7MgrB fxHost1 =
      (⟨some ⟨fxHost1, macToChars c7Hw, ipToChars 167772169⟩, .FULL, .HOSTNAME⟩, none) :=
  ⟨(claim_c7_lookup_by_hostname c7MgrA fxHost1 ⟨some 167772169, fxHost1, []⟩ 167772169
      (by decide) (by decide) rfl (by decide)).2 (by decide),
   (claim_c7_lookup_by_hostname c7MgrB fxHost1 ⟨some 167772169, fxHost1, []⟩ 167772169
      (by decide) (by decide) rfl (by decide)).1
      ⟨c7Hw, some 167772169⟩ (by decide)⟩

/-! ## C9 — the render/parse round trip -/

/-- "a b": a hostname containing a space, which `Add` accepts. -/
def c9Name : Str := ['a', ' ', 'b']

/-- "1.1.1.1" = 16843009 -/
def c9Ip : Str := ['1', '.', '1', '.', '1', '.', '1']

/-- A store built by one successful `Add` whose hostname contains a
space. -/
def c9Conf : Etchosts.Conf := (Etchosts.addH [] c9Name c9Ip []).conf

/-- C9 counterexample: the round trip fails for a store built purely
from successful `Add` calls.  `Add` accepts the hostname `"a b"`, but
the rendered line re-parses into a different entry (hostname `"a"`
with alias `"b"`), so parse-after-render is not the identity on this
`Add`-built store. -/
theorem claim_c9_counterexample :
    (Etchosts.addH [] c9Name c9Ip []).err = none ∧
    c9Conf = [⟨some 16843009, c9Name, []⟩] ∧
    Etchosts.parseE (Etchosts.confString c9Conf) = [⟨some 16843009, ['a'], [['b']]⟩] ∧
    Etchosts.parseE (Etchosts.confString c9Conf) ≠ c9Conf := by
  refine ⟨?_, ?_, ?_, ?_⟩ <;> decide

/-- C9 amended: the round trip holds exactly as claimed for the MAC/IP
store; for the hostname store it additionally requires every hostname
and alias to be free of spaces, tabs and newlines (the source's `Add`
does not validate this, and such fields break the whitespace-separated
line format). -/
theorem claim_c9_amended :
    (∀ m : Etchosts.Conf, Etchosts.BuiltE m →
      (∀ h ∈ m, CleanStr h.canonicalHostname ∧ ∀ al ∈ h.aliases, CleanStr al) →
      Etchosts.parseE (Etchosts.confString m) = m) ∧
    (∀ m : Dhcp.Conf, Dhcp.BuiltD m → Dhcp.parseD (Dhcp.confString m) = .ok m) :=
  ⟨Etchosts.parseE_confString, Dhcp.parseD_confString⟩

/-- A well-behaved `Add`-built hostname store (one entry with an
alias). -/
def c9WConf : Etchosts.Conf :=
  (Etchosts.addH [] fxHost1 fxIp9 [['w', 'w', 'w']]).conf

/-- C9 witness: the round trip on concrete `Add`-built stores. -/
theorem claim_c9_witness :
    Etchosts.parseE (Etchosts.confString c9WConf) = c9WConf ∧
    Dhcp.parseD (Dhcp.confString c6Conf) = .ok c6Conf :=
  ⟨claim_c9_amended.1 c9WConf
      (Etchosts.BuiltE.step [] fxHost1 fxIp9 [['w', 'w', 'w']] Etchosts.BuiltE.nil
        (by decide))
      (by decide),
   claim_c9_amended.2 c6Conf
      (Dhcp.BuiltD.step [] fxMac1 fxIp9 Dhcp.BuiltD.nil (by decide))⟩

/-! ## C3 — the exhaustion scenario on the range 10.0.0.2–10.0.0.5 -/

theorem requestAddress_omitted (m : Mgr) (hostname mac : Str) (rnd : Nat)
    (hh : hostname ≠ []) (hm : mac ≠ []) :
    requestAddress m hostname mac [] rnd =
      requestCore m hostname mac (ipStr (allocate m.ipAlloc rnd).1)
        (allocate m.ipAlloc rnd).2 := by
  rw [requestAddress, if_neg (not_or.2 ⟨hh, hm⟩), if_pos rfl]

theorem Inv_insert (a : Alloc) (j : Int) (hinv : Inv a) (hj0 : 0 ≤ j)
    (hjs : j < a.size) (hjres : j ∉ a.reserved) :
    Inv { a with reserved := insert j a.reserved, remaining := a.remaining - 1 } := by
  obtain ⟨hsize, hrm, hrange⟩ := hinv
  refine ⟨hsize, ?_, ?_⟩
  · simp only [Finset.card_insert_of_not_mem hjres]
    push_cast
    omega
  · intro i hi
    rcases Finset.mem_insert.1 hi with rfl | hi
    · exact ⟨hj0, hjs⟩
    · exact hrange i hi

/-- `requestCore` on a fresh hostname/MAC/address: both adds succeed
and append, the reply is the request triple with match `NONE`. -/
theorem requestCore_fresh (m : Mgr) (hostname mac : Str) (v : Nat) (alloc2 : Alloc)
    (hw : List Nat) (hv : v < 2 ^ 32) (hname : hostname ≠ [])
    (hmac : parseMAC mac = some hw)
    (hfresh : ∀ g ∈ m.nameMap, g.canonicalHostname ≠ hostname ∧ g.address ≠ some v)
    (hmk : ∀ g ∈ m.addrMap, macToChars g.hw ≠ macToChars hw) :
    requestCore m hostname mac (ipToChars v) alloc2 =
      ((some ⟨some ⟨hostname, mac, ipToChars v⟩, .NONE, .HOSTNAME⟩, none),
       ⟨m.nameMap ++ [⟨some v, hostname, []⟩], m.addrMap ++ [⟨hw, some v⟩], alloc2⟩) := by
  have hea := Etchosts.addH_success m.nameMap hostname (ipToChars v) [] v hname
    (parseIPv4_ipToChars v hv)
    (fun g hg => Etchosts.hostDup_false_of_fresh g hostname v (hfresh g hg).1
      (hfresh g hg).2)
  have hda := Dhcp.addB_success m.addrMap mac (ipToChars v) hw v hmac
    (parseIPv4_ipToChars v hv) hmk
  simp only [requestCore, hea, hda, Bool.false_eq_true, if_false]

/-- `requestCore` handed the `"<nil>"` rendering of an exhausted
allocation: the hostname-store add rejects the IP and the request
aborts with the malformed-IP error. -/
theorem requestCore_nil (m : Mgr) (hostname mac : Str) (alloc2 : Alloc)
    (hname : hostname ≠ []) :
    requestCore m hostname mac (ipStr none) alloc2 =
      ((none, some .badIPFormat), { m with ipAlloc := alloc2 }) := by
  simp [requestCore, Etchosts.addH, if_neg hname, parseIPv4_nilStr]

/-- A full `RequestAddress` with omitted IP on a manager whose
allocator still has room and whose stores are fresh for the request:
it succeeds with a newly allocated address. -/
theorem requestAddress_fresh (M : Mgr) (hostname mac : Str) (hw : List Nat) (rnd : Nat)
    (hh : hostname ≠ []) (hm : mac ≠ [])
    (hmac : parseMAC mac = some hw)
    (hinv : Inv M.ipAlloc) (hrem : 0 < M.ipAlloc.remaining)
    (hrnd : (rnd : Int) < M.ipAlloc.size)
    (hv32 : (M.ipAlloc.startV : Int) + M.ipAlloc.size ≤ 2 ^ 32)
    (hfname : ∀ g ∈ M.nameMap, g.canonicalHostname ≠ hostname)
    (hfaddr : ∀ g ∈ M.nameMap, ∀ w : Nat, g.address = some w →
      ((w : Int) - M.ipAlloc.startV) ∈ M.ipAlloc.reserved)
    (hfmac : ∀ g ∈ M.addrMap, macToChars g.hw ≠ macToChars hw) :
    ∃ j : Int, 0 ≤ j ∧ j < M.ipAlloc.size ∧ j ∉ M.ipAlloc.reserved ∧
      requestAddress M hostname mac [] rnd =
        ((some ⟨some ⟨hostname, mac, ipToChars (M.ipAlloc.startV + j.toNat)⟩,
            .NONE, .HOSTNAME⟩, none),
         ⟨M.nameMap ++ [⟨some (M.ipAlloc.startV + j.toNat), hostname, []⟩],
          M.addrMap ++ [⟨hw, some (M.ipAlloc.startV + j.toNat)⟩],
          Alloc.mk M.ipAlloc.startV M.ipAlloc.endV M.ipAlloc.size
            (M.ipAlloc.remaining - 1) (insert j M.ipAlloc.reserved)⟩) := by
  obtain ⟨j, hj0, hjs, hjres, heq⟩ := allocate_success M.ipAlloc rnd hinv hrem hrnd
  refine ⟨j, hj0, hjs, hjres, ?_⟩
  rw [requestAddress_omitted M hostname mac rnd hh hm, heq]
  show requestCore M hostname mac (ipToChars (M.ipAlloc.startV + j.toNat)) _ = _
  rw [requestCore_fresh M hostname mac (M.ipAlloc.startV + j.toNat) _ hw
    (by omega) hh hmac ?fresh hfmac]
  case fresh =>
    intro g hg
    refine ⟨hfname g hg, ?_⟩
    intro hctr
    have := hfaddr g hg (M.ipAlloc.startV + j.toNat) hctr
    have hjj : ((M.ipAlloc.startV + j.toNat : Nat) : Int) - M.ipAlloc.startV = j := by
      omega
    rw [hjj] at this
    exact hjres this

/-- "host3" -/
def fxHost3 : Str := ['h', 'o', 's', 't', '3']

/-- "host4" -/
def fxHost4 : Str := ['h', 'o', 's', 't', '4']

/-- "host5" -/
def fxHost5 : Str := ['h', 'o', 's', 't', '5']

/-- "aa:bb:cc:dd:ee:03" -/
def fxMac3 : Str :=
  ['a', 'a', ':', 'b', 'b', ':', 'c', 'c', ':', 'd', 'd', ':', 'e', 'e', ':', '0', '3']

/-- "aa:bb:cc:dd:ee:04" -/
def fxMac4 : Str :=
  ['a', 'a', ':', 'b', 'b', ':', 'c', 'c', ':', 'd', 'd', ':', 'e', 'e', ':', '0', '4']

/-- "aa:bb:cc:dd:ee:05" -/
def fxMac5 : Str :=
  ['a', 'a', ':', 'b', 'b', ':', 'c', 'c', ':', 'd', 'd', ':', 'e', 'e', ':', '0', '5']

/-- The bytes of `fxMac3`. -/
def fxHw3 : List Nat := [0xaa, 0xbb, 0xcc, 0xdd, 0xee, 0x03]

/-- The bytes of `fxMac4`. -/
def fxHw4 : List Nat := [0xaa, 0xbb, 0xcc, 0xdd, 0xee, 0x04]

/-- The bytes of `fxMac5`. -/
def fxHw5 : List Nat := [0xaa, 0xbb, 0xcc, 0xdd, 0xee, 0x05]

/-- A manager over the range 10.0.0.2–10.0.0.5 (size 4) with empty
stores. -/
def c3Mgr : Mgr := { nameMap := [], addrMap := [], ipAlloc := newAllocator 167772162 167772165 }

/-- The state after four successful omitted-IP requests with random
draws 0. -/
def c3Mgr4 : Mgr :=
  (requestAddress (requestAddress (requestAddress
    (requestAddress c3Mgr fxHost1 fxMac1 [] 0).2
    fxHost2 fxMac2 [] 0).2 fxHost3 fxMac3 [] 0).2 fxHost4 fxMac4 [] 0).2

/-- C3 counterexample: after the pool is exhausted, the fifth
omitted-IP request does fail — but with the hostname store's
malformed-IP error, not an allocator-exhausted kind: `RequestAddress`
never checks `Allocate()` for nil, renders the nil address as
`"<nil>"`, and lets the store's IP validation reject it.  (No
allocator-exhausted error value exists anywhere in the code.) -/
theorem claim_c3_counterexample :
    c3Mgr4.ipAlloc.remaining = 0 ∧
    (requestAddress c3Mgr4 fxHost5 fxMac5 [] 0).1 = (none, some .badIPFormat) := by
  refine ⟨?_, ?_⟩ <;> decide

/-- C3 amended: whatever the five random draws, the four omitted-IP
requests on fresh hostname/MAC pairs all succeed with four pairwise
distinct addresses from 10.0.0.2–10.0.0.5, and the fifth fails — with
the malformed-address error produced by rendering the exhausted
allocator's nil result, there being no allocator-exhausted error kind
in the code. -/
theorem claim_c3_amended (r1 r2 r3 r4 r5 : Nat)
    (h1 : r1 < 4) (h2 : r2 < 4) (h3 : r3 < 4) (h4 : r4 < 4) (h5 : r5 < 4) :
    ∃ v1 v2 v3 v4 : Nat,
      (requestAddress c3Mgr fxHost1 fxMac1 [] r1).1 =
        (some ⟨some ⟨fxHost1, fxMac1, ipToChars v1⟩, .NONE, .HOSTNAME⟩, none) ∧
      (requestAddress (requestAddress c3Mgr fxHost1 fxMac1 [] r1).2
          fxHost2 fxMac2 [] r2).1 =
        (some ⟨some ⟨fxHost2, fxMac2, ipToChars v2⟩, .NONE, .HOSTNAME⟩, none) ∧
      (requestAddress (requestAddress (requestAddress c3Mgr fxHost1 fxMac1 [] r1).2
          fxHost2 fxMac2 [] r2).2 fxHost3 fxMac3 [] r3).1 =
        (some ⟨some ⟨fxHost3, fxMac3, ipToChars v3⟩, .NONE, .HOSTNAME⟩, none) ∧
      (requestAddress (requestAddress (requestAddress
          (requestAddress c3Mgr fxHost1 fxMac1 [] r1).2 fxHost2 fxMac2 [] r2).2
          fxHost3 fxMac3 [] r3).2 fxHost4 fxMac4 [] r4).1 =
        (some ⟨some ⟨fxHost4, fxMac4, ipToChars v4⟩, .NONE, .HOSTNAME⟩, none) ∧
      (requestAddress (requestAddress (requestAddress (requestAddress
          (requestAddress c3Mgr fxHost1 fxMac1 [] r1).2 fxHost2 fxMac2 [] r2).2
          fxHost3 fxMac3 [] r3).2 fxHost4 fxMac4 [] r4).2 fxHost5 fxMac5 [] r5).1 =
        (none, some .badIPFormat) ∧
      [v1, v2, v3, v4].Nodup ∧
      ∀ v ∈ [v1, v2, v3, v4], 167772162 ≤ v ∧ v ≤ 167772165 := by
  have hsz : c3Mgr.ipAlloc.size = 4 := by decide
  -- step 1
  obtain ⟨j1, hj10, hj1s, hj1r, hp1⟩ :=
    requestAddress_fresh c3Mgr fxHost1 fxMac1 fxHw1 r1 (by decide) (by decide) (by decide)
      (newAllocator_inv 167772162 167772165) (by decide)
      (by rw [hsz]; omega) (by decide)
      (by intro g hg; simp [c3Mgr] at hg)
      (by intro g hg; simp [c3Mgr] at hg)
      (by intro g hg; simp [c3Mgr] at hg)
  have hj1s4 : j1 < 4 := hsz ▸ hj1s
  have hp1x : requestAddress c3Mgr fxHost1 fxMac1 [] r1 =
      ((some ⟨some ⟨fxHost1, fxMac1, ipToChars (167772162 + j1.toNat)⟩,
          .NONE, .HOSTNAME⟩, none),
       ⟨[⟨some (167772162 + j1.toNat), fxHost1, []⟩],
        [⟨fxHw1, some (167772162 + j1.toNat)⟩],
        Alloc.mk 167772162 167772165 4 3 (insert j1 ∅)⟩) := hp1.trans rfl
  -- step 2
  obtain ⟨j2, hj20, hj2s, hj2r, hp2⟩ :=
    requestAddress_fresh
      ⟨[⟨some (167772162 + j1.toNat), fxHost1, []⟩],
       [⟨fxHw1, some (167772162 + j1.toNat)⟩],
       Alloc.mk 167772162 167772165 4 3 (insert j1 ∅)⟩
      fxHost2 fxMac2 fxHw2 r2 (by decide) (by decide) (by decide)
      (Inv_insert (newAllocator 167772162 167772165) j1
        (newAllocator_inv 167772162 167772165) hj10 hj1s hj1r)
      (by norm_num) (by show (r2 : Int) < 4; omega)
      (by show ((167772162 : Nat) : Int) + 4 ≤ 2 ^ 32; decide)
      (by
        intro g hg
        simp only [List.mem_singleton] at hg
        subst hg
        show fxHost1 ≠ fxHost2
        decide)
      (by
        intro g hg w hw
        simp only [List.mem_singleton] at hg
        subst hg
        have hww : (167772162 + j1.toNat : Nat) = w := Option.some_inj.1 hw
        show ((w : Int) - 167772162) ∈ insert j1 ∅
        have hwj : (w : Int) - 167772162 = j1 := by omega
        rw [hwj]
        exact Finset.mem_insert_self _ _)
      (by
        intro g hg
        simp only [List.mem_singleton] at hg
        subst hg
        show macToChars fxHw1 ≠ macToChars fxHw2
        decide)
  have hj2s4 : j2 < 4 := hj2s
  have hj2ne1 : j2 ≠ j1 := by simpa using hj2r
  have hp2x : requestAddress
      ⟨[⟨some (167772162 + j1.toNat), fxHost1, []⟩],
       [⟨fxHw1, some (167772162 + j1.toNat)⟩],
       Alloc.mk 167772162 167772165 4 3 (insert j1 ∅)⟩ fxHost2 fxMac2 [] r2 =
      ((some ⟨some ⟨fxHost2, fxMac2, ipToChars (167772162 + j2.toNat)⟩,
          .NONE, .HOSTNAME⟩, none),
       ⟨[⟨some (167772162 + j1.toNat), fxHost1, []⟩,
         ⟨some (167772162 + j2.toNat), fxHost2, []⟩],
        [⟨fxHw1, some (167772162 + j1.toNat)⟩, ⟨fxHw2, some (167772162 + j2.toNat)⟩],
        Alloc.mk 167772162 167772165 4 2 (insert j2 (insert j1 ∅))⟩) := hp2.trans rfl
  -- step 3
  obtain ⟨j3, hj30, hj3s, hj3r, hp3⟩ :=
    requestAddress_fresh
      ⟨[⟨some (167772162 + j1.toNat), fxHost1, []⟩,
        ⟨some (167772162 + j2.toNat), fxHost2, []⟩],
       [⟨fxHw1, some (167772162 + j1.toNat)⟩, ⟨fxHw2, some (167772162 + j2.toNat)⟩],
       Alloc.mk 167772162 167772165 4 2 (insert j2 (insert j1 ∅))⟩
      fxHost3 fxMac3 fxHw3 r3 (by decide) (by decide) (by decide)
      (Inv_insert (Alloc.mk 167772162 167772165 4 3 (insert j1 ∅)) j2
        (Inv_insert (newAllocator 167772162 167772165) j1
          (newAllocator_inv 167772162 167772165) hj10 hj1s hj1r) hj20 hj2s hj2r)
      (by norm_num) (by show (r3 : Int) < 4; omega)
      (by show ((167772162 : Nat) : Int) + 4 ≤ 2 ^ 32; decide)
      (by
        intro g hg
        simp only [List.mem_cons, List.mem_singleton, List.not_mem_nil, or_false] at hg
        rcases hg with rfl | rfl
        · show fxHost1 ≠ fxHost3
          decide
        · show fxHost2 ≠ fxHost3
          decide)
      (by
        intro g hg w hw
        simp only [List.mem_cons, List.mem_singleton, List.not_mem_nil, or_false] at hg
        rcases hg with rfl | rfl
        · have hww : (167772162 + j1.toNat : Nat) = w := Option.some_inj.1 hw
          show ((w : Int) - 167772162) ∈ insert j2 (insert j1 ∅)
          have hwj : (w : Int) - 167772162 = j1 := by omega
          rw [hwj]
          exact Finset.mem_insert_of_mem (Finset.mem_insert_self _ _)
        · have hww : (167772162 + j2.toNat : Nat) = w := Option.some_inj.1 hw
          show ((w : Int) - 167772162) ∈ insert j2 (insert j1 ∅)
          have hwj : (w : Int) - 167772162 = j2 := by omega
          rw [hwj]
          exact Finset.mem_insert_self _ _)
      (by
        intro g hg
        simp only [List.mem_cons, List.mem_singleton, List.not_mem_nil, or_false] at hg
        rcases hg with rfl | rfl
        · show macToChars fxHw1 ≠ macToChars fxHw3
          decide
        · show macToChars fxHw2 ≠ macToChars fxHw3
          decide)
  have hj3s4 : j3 < 4 := hj3s
  have hj3ne : j3 ≠ j2 ∧ j3 ≠ j1 := by
    constructor <;> (intro hc; exact hj3r (by rw [hc]; simp))
  have hp3x : requestAddress
      ⟨[⟨some (167772162 + j1.toNat), fxHost1, []⟩,
        ⟨some (167772162 + j2.toNat), fxHost2, []⟩],
       [⟨fxHw1, some (167772162 + j1.toNat)⟩, ⟨fxHw2, some (167772162 + j2.toNat)⟩],
       Alloc.mk 167772162 167772165 4 2 (insert j2 (insert j1 ∅))⟩ fxHost3 fxMac3 [] r3 =
      ((some ⟨some ⟨fxHost3, fxMac3, ipToChars (167772162 + j3.toNat)⟩,
          .NONE, .HOSTNAME⟩, none),
       ⟨[⟨some (167772162 + j1.toNat), fxHost1, []⟩,
         ⟨some (167772162 + j2.toNat), fxHost2, []⟩,
         ⟨some (167772162 + j3.toNat), fxHost3, []⟩],
        [⟨fxHw1, some (167772162 + j1.toNat)⟩, ⟨fxHw2, some (167772162 + j2.toNat)⟩,
         ⟨fxHw3, some (167772162 + j3.toNat)⟩],
        Alloc.mk 167772162 167772165 4 1 (insert j3 (insert j2 (insert j1 ∅)))⟩) :=
    hp3.trans rfl
  -- step 4
  obtain ⟨j4, hj40, hj4s, hj4r, hp4⟩ :=
    requestAddress_fresh
      ⟨[⟨some (167772162 + j1.toNat), fxHost1, []⟩,
        ⟨some (167772162 + j2.toNat), fxHost2, []⟩,
        ⟨some (167772162 + j3.toNat), fxHost3, []⟩],
       [⟨fxHw1, some (167772162 + j1.toNat)⟩, ⟨fxHw2, some (167772162 + j2.toNat)⟩,
        ⟨fxHw3, some (167772162 + j3.toNat)⟩],
       Alloc.mk 167772162 167772165 4 1 (insert j3 (insert j2 (insert j1 ∅)))⟩
      fxHost4 fxMac4 fxHw4 r4 (by decide) (by decide) (by decide)
      (Inv_insert (Alloc.mk 167772162 167772165 4 2 (insert j2 (insert j1 ∅))) j3
        (Inv_insert (Alloc.mk 167772162 167772165 4 3 (insert j1 ∅)) j2
          (Inv_insert (newAllocator 167772162 167772165) j1
            (newAllocator_inv 167772162 167772165) hj10 hj1s hj1r) hj20 hj2s hj2r)
        hj30 hj3s hj3r)
      (by norm_num) (by show (r4 : Int) < 4; omega)
      (by show ((167772162 : Nat) : Int) + 4 ≤ 2 ^ 32; decide)
      (by
        intro g hg
        simp only [List.mem_cons, List.mem_singleton, List.not_mem_nil, or_false] at hg
        rcases hg with rfl | rfl | rfl
        · show fxHost1 ≠ fxHost4
          decide
        · show fxHost2 ≠ fxHost4
          decide
        · show fxHost3 ≠ fxHost4
          decide)
      (by
        intro g hg w hw
        simp only [List.mem_cons, List.mem_singleton, List.not_mem_nil, or_false] at hg
        rcases hg with rfl | rfl | rfl
        · have hww : (167772162 + j1.toNat : Nat) = w := Option.some_inj.1 hw
          show ((w : Int) - 167772162) ∈ insert j3 (insert j2 (insert j1 ∅))
          have hwj : (w : Int) - 167772162 = j1 := by omega
          rw [hwj]
          simp
        · have hww : (167772162 + j2.toNat : Nat) = w := Option.some_inj.1 hw
          show ((w : Int) - 167772162) ∈ insert j3 (insert j2 (insert j1 ∅))
          have hwj : (w : Int) - 167772162 = j2 := by omega
          rw [hwj]
          simp
        · have hww : (167772162 + j3.toNat : Nat) = w := Option.some_inj.1 hw
          show ((w : Int) - 167772162) ∈ insert j3 (insert j2 (insert j1 ∅))
          have hwj : (w : Int) - 167772162 = j3 := by omega
          rw [hwj]
          simp)
      (by
        intro g hg
        simp only [List.mem_cons, List.mem_singleton, List.not_mem_nil, or_false] at hg
        rcases hg with rfl | rfl | rfl
        · show macToChars fxHw1 ≠ macToChars fxHw4
          decide
        · show macToChars fxHw2 ≠ macToChars fxHw4
          decide
        · show macToChars fxHw3 ≠ macToChars fxHw4
          decide)
  have hj4s4 : j4 < 4 := hj4s
  have hj4ne : j4 ≠ j3 ∧ j4 ≠ j2 ∧ j4 ≠ j1 := by
    refine ⟨?_, ?_, ?_⟩ <;> (intro hc; exact hj4r (by rw [hc]; simp))
  have hp4x : requestAddress
      ⟨[⟨some (167772162 + j1.toNat), fxHost1, []⟩,
        ⟨some (167772162 + j2.toNat), fxHost2, []⟩,
        ⟨some (167772162 + j3.toNat), fxHost3, []⟩],
       [⟨fxHw1, some (167772162 + j1.toNat)⟩, ⟨fxHw2, some (167772162 + j2.toNat)⟩,
        ⟨fxHw3, some (167772162 + j3.toNat)⟩],
       Alloc.mk 167772162 167772165 4 1 (insert j3 (insert j2 (insert j1 ∅)))⟩
      fxHost4 fxMac4 [] r4 =
      ((some ⟨some ⟨fxHost4, fxMac4, ipToChars (167772162 + j4.toNat)⟩,
          .NONE, .HOSTNAME⟩, none),
       ⟨[⟨some (167772162 + j1.toNat), fxHost1, []⟩,
         ⟨some (167772162 + j2.toNat), fxHost2, []⟩,
         ⟨some (167772162 + j3.toNat), fxHost3, []⟩,
         ⟨some (167772162 + j4.toNat), fxHost4, []⟩],
        [⟨fxHw1, some (167772162 + j1.toNat)⟩, ⟨fxHw2, some (167772162 + j2.toNat)⟩,
         ⟨fxHw3, some (167772162 + j3.toNat)⟩, ⟨fxHw4, some (167772162 + j4.toNat)⟩],
        Alloc.mk 167772162 167772165 4 0
          (insert j4 (insert j3 (insert j2 (insert j1 ∅))))⟩) := hp4.trans rfl
  -- step 5: the pool is exhausted, the nil allocation renders as "<nil>"
  have hp5x : (requestAddress
      ⟨[⟨some (167772162 + j1.toNat), fxHost1, []⟩,
        ⟨some (167772162 + j2.toNat), fxHost2, []⟩,
        ⟨some (167772162 + j3.toNat), fxHost3, []⟩,
        ⟨some (167772162 + j4.toNat), fxHost4, []⟩],
       [⟨fxHw1, some (167772162 + j1.toNat)⟩, ⟨fxHw2, some (167772162 + j2.toNat)⟩,
        ⟨fxHw3, some (167772162 + j3.toNat)⟩, ⟨fxHw4, some (167772162 + j4.toNat)⟩],
       Alloc.mk 167772162 167772165 4 0
         (insert j4 (insert j3 (insert j2 (insert j1 ∅))))⟩
      fxHost5 fxMac5 [] r5).1 = (none, some .badIPFormat) := by
    rw [requestAddress_omitted _ _ _ _ (by decide) (by decide),
      allocate_exhausted _ _ (le_refl 0)]
    rw [requestCore_nil _ _ _ _ (by decide)]
  refine ⟨167772162 + j1.toNat, 167772162 + j2.toNat, 167772162 + j3.toNat,
    167772162 + j4.toNat, ?_, ?_, ?_, ?_, ?_, ?_, ?_⟩
  · simp only [hp1x]
  · simp only [hp1x, hp2x]
  · simp only [hp1x, hp2x, hp3x]
  · simp only [hp1x, hp2x, hp3x, hp4x]
  · simp only [hp1x, hp2x, hp3x, hp4x, hp5x]
  · simp only [List.nodup_cons, List.mem_cons, List.mem_singleton, List.not_mem_nil,
      List.nodup_nil, not_or, not_false_eq_true, and_true]
    omega
  · intro v hv
    simp only [List.mem_cons, List.mem_singleton, List.not_mem_nil, or_false] at hv
    rcases hv with rfl | rfl | rfl | rfl <;> omega

/-- C3 witness: the amended statement at the concrete draws 0,1,2,3,0. -/
theorem claim_c3_witness :
    ∃ v1 v2 v3 v4 : Nat,
      (requestAddress c3Mgr fxHost1 fxMac1 [] 0).1 =
        (some ⟨some ⟨fxHost1, fxMac1, ipToChars v1⟩, .NONE, .HOSTNAME⟩, none) ∧
      (requestAddress (requestAddress c3Mgr fxHost1 fxMac1 [] 0).2
          fxHost2 fxMac2 [] 1).1 =
        (some ⟨some ⟨fxHost2, fxMac2, ipToChars v2⟩, .NONE, .HOSTNAME⟩, none) ∧
      (requestAddress (requestAddress (requestAddress c3Mgr fxHost1 fxMac1 [] 0).2
          fxHost2 fxMac2 [] 1).2 fxHost3 fxMac3 [] 2).1 =
        (some ⟨some ⟨fxHost3, fxMac3, ipToChars v3⟩, .NONE, .HOSTNAME⟩, none) ∧
      (requestAddress (requestAddress (requestAddress
          (requestAddress c3Mgr fxHost1 fxMac1 [] 0).2 fxHost2 fxMac2 [] 1).2
          fxHost3 fxMac3 [] 2).2 fxHost4 fxMac4 [] 3).1 =
        (some ⟨some ⟨fxHost4, fxMac4, ipToChars v4⟩, .NONE, .HOSTNAME⟩, none) ∧
      (requestAddress (requestAddress (requestAddress (requestAddress
          (requestAddress c3Mgr fxHost1 fxMac1 [] 0).2 fxHost2 fxMac2 [] 1).2
          fxHost3 fxMac3 [] 2).2 fxHost4 fxMac4 [] 3).2 fxHost5 fxMac5 [] 0).1 =
        (none, some .badIPFormat) ∧
      [v1, v2, v3, v4].Nodup ∧
      ∀ v ∈ [v1, v2, v3, v4], 167772162 ≤ v ∧ v ≤ 167772165 :=
  claim_c3_amended 0 1 2 3 0 (by decide) (by decide) (by decide) (by decide) (by decide)

end DnsmasqMgr
